import Mathlib

/-!
Verification development for the shasplit repository engine
(`src/shasplit.py`).

The Python program is shallowly embedded: byte streams are lists of
naturals, path segments and hex digests are lists of characters, the
content-addressed blob store and the per-name instance trees are
association lists, and fallible operations return `Except Err`.
Every definition is translated from the source file; line numbers in
the doc comments refer to `src/shasplit.py`.
-/

namespace Shasplit

/-- Byte streams are modelled as lists of naturals (one entry per byte). -/
abbrev Bytes := List Nat

/-- Path segments, directory names and hex digests are lists of characters
(Python strings compared by code point). -/
abbrev Seg := List Char

/-- Error kinds raised by the Python code, one constructor per raise site
relevant to the claims: `TypeError` (validators, bad call arity),
`ValueError` (negative declared size, `rsplit` unpacking),
`OSError` (missing file or directory, dangling symlink, `os.symlink`
on an existing path), and the `RuntimeError` sites of `sizes`,
`add_nomaxbackups`, `recover_nosizecheck`, `recover` and
`recover_latest`. -/
inductive Err where
  | typeError
  | valueError
  | osError
  | alreadyExists
  | tooManyParts
  | integrity
  | incomplete
  | noCompleted
  deriving DecidableEq, Repr

/-- The engine configuration: the `Shasplit.__init__` attributes used by the
claims (lines 73-81).  The hash algorithm is abstracted as an explicit
digest function passed to the operations that hash data. -/
structure Config where
  partsize : Nat
  maxparts : Nat
  snapshotsuffix : Seg
  deriving DecidableEq, Repr

/-- First-match association-list lookup; models looking a file or
directory name up inside its parent directory. -/
def lookupA {κ ν : Type} [DecidableEq κ] : List (κ × ν) → κ → Option ν
  | [], _ => none
  | e :: es, k => if e.1 = k then some e.2 else lookupA es k

/-- Replace the value stored under key `k` (first match); models
overwriting an existing file in place. -/
def setA {κ ν : Type} [DecidableEq κ] : List (κ × ν) → κ → ν → List (κ × ν)
  | [], _, _ => []
  | e :: es, k, v => if e.1 = k then (k, v) :: es else e :: setA es k v

/-- Big-endian decimal digit characters of `n`, empty for `n = 0`.
Structural recursion on a fuel argument that must be at least `n`,
so that the definition reduces inside the kernel. -/
def pyStrAux : Nat → Nat → List Char
  | 0, _ => []
  | fuel + 1, n => if n = 0 then [] else pyStrAux fuel (n / 10) ++ [Nat.digitChar (n % 10)]

/-- Python `str(n)` for a natural number `n`. -/
def pyStr (n : Nat) : List Char :=
  if n = 0 then ['0'] else pyStrAux n n

/-- Python `s.rjust(w, c)`: left-pad `s` with `c` up to length `w`
(returns `s` unchanged when `s` is already at least that long). -/
def rjust (s : List Char) (w : Nat) (c : Char) : List Char :=
  List.replicate (w - s.length) c ++ s

/-- Width-`w` zero-padded big-endian decimal digits of `n`; the proof-side
normal form of `rjust (pyStr n) w '0'` for `n < 10 ^ w`. -/
def beDigits : Nat → Nat → List Char
  | 0, _ => []
  | w + 1, n => beDigits w (n / 10) ++ [Nat.digitChar (n % 10)]

theorem pyStrAux_zero (f : Nat) : pyStrAux f 0 = [] := by
  cases f <;> simp [pyStrAux]

theorem pyStrAux_congr (f₁ : Nat) :
    ∀ f₂ n, n ≤ f₁ → n ≤ f₂ → pyStrAux f₁ n = pyStrAux f₂ n := by
  induction f₁ with
  | zero =>
    intro f₂ n h1 _
    have : n = 0 := Nat.le_zero.mp h1
    subst this
    simp [pyStrAux_zero, pyStrAux]
  | succ f ih =>
    intro f₂ n h1 h2
    rcases Nat.eq_zero_or_pos n with hn | hn
    · subst hn; simp [pyStrAux_zero]
    · have hf₂ : ∃ f₂', f₂ = f₂' + 1 := by
        cases f₂ with
        | zero => omega
        | succ m => exact ⟨m, rfl⟩
      obtain ⟨f₂', rfl⟩ := hf₂
      have hne : n ≠ 0 := Nat.pos_iff_ne_zero.mp hn
      simp only [pyStrAux, if_neg hne]
      have hdiv : n / 10 < n := Nat.div_lt_self hn (by norm_num)
      rw [ih f₂' (n / 10) (by omega) (by omega)]

theorem beDigits_length (w : Nat) : ∀ n, (beDigits w n).length = w := by
  induction w with
  | zero => intro n; simp [beDigits]
  | succ w ih => intro n; simp [beDigits, ih]

theorem digitChar_zero : Nat.digitChar 0 = '0' := rfl

theorem beDigits_zero (w : Nat) : beDigits w 0 = List.replicate w '0' := by
  induction w with
  | zero => simp [beDigits]
  | succ w ih =>
    rw [beDigits, Nat.zero_div, Nat.zero_mod, ih, digitChar_zero,
      List.replicate_succ']

theorem rjust_beDigits_aux (w : Nat) :
    ∀ n f, 0 < n → n ≤ f → n < 10 ^ w → rjust (pyStrAux f n) w '0' = beDigits w n := by
  induction w with
  | zero =>
    intro n f hn _ hlt
    simp at hlt
    omega
  | succ w ih =>
    intro n f hn hf hlt
    have hne : n ≠ 0 := Nat.pos_iff_ne_zero.mp hn
    obtain ⟨f', rfl⟩ : ∃ f', f = f' + 1 := by
      cases f with
      | zero => omega
      | succ m => exact ⟨m, rfl⟩
    rw [pyStrAux, if_neg hne]
    rcases Nat.eq_zero_or_pos (n / 10) with hq | hq
    · rw [hq, pyStrAux_zero, List.nil_append, beDigits, hq, beDigits_zero]
      have hmod : n % 10 = n := by omega
      rw [hmod]
      simp [rjust]
    · have hqf : n / 10 ≤ f' := by
        have : n / 10 < n := Nat.div_lt_self hn (by norm_num)
        omega
      have hqlt : n / 10 < 10 ^ w := by
        rw [Nat.div_lt_iff_lt_mul (by norm_num)]
        calc n < 10 ^ (w + 1) := hlt
        _ = 10 ^ w * 10 := by ring
      have ihq := ih (n / 10) f' hq hqf hqlt
      rw [beDigits, ← ihq]
      simp only [rjust, List.length_append, List.length_singleton]
      have : w + 1 - ((pyStrAux f' (n / 10)).length + 1)
          = w - (pyStrAux f' (n / 10)).length := by omega
      rw [this, List.append_assoc]

theorem pyStrAux_lt_pow (f : Nat) :
    ∀ n, n ≤ f → n < 10 ^ (pyStrAux f n).length := by
  induction f with
  | zero =>
    intro n h
    have : n = 0 := Nat.le_zero.mp h
    subst this
    simp [pyStrAux]
  | succ f ih =>
    intro n h
    rcases Nat.eq_zero_or_pos n with hn | hn
    · subst hn; simp [pyStrAux_zero]
    · have hne : n ≠ 0 := Nat.pos_iff_ne_zero.mp hn
      rw [pyStrAux, if_neg hne]
      have hqf : n / 10 ≤ f := by
        have : n / 10 < n := Nat.div_lt_self hn (by norm_num)
        omega
      have hq := ih (n / 10) hqf
      simp only [List.length_append, List.length_singleton]
      have hmod := Nat.div_add_mod n 10
      have hpow : 10 ^ ((pyStrAux f (n / 10)).length + 1)
          = 10 ^ (pyStrAux f (n / 10)).length * 10 := by ring
      rw [hpow]
      omega

theorem pyStr_lt_pow (n : Nat) : n < 10 ^ (pyStr n).length := by
  unfold pyStr
  rcases Nat.eq_zero_or_pos n with hn | hn
  · subst hn; simp
  · rw [if_neg (Nat.pos_iff_ne_zero.mp hn)]
    exact pyStrAux_lt_pow n n le_rfl

theorem rjust_pyStr_eq_beDigits (w n : Nat) (hw : 0 < w) (hn : n < 10 ^ w) :
    rjust (pyStr n) w '0' = beDigits w n := by
  unfold pyStr
  rcases Nat.eq_zero_or_pos n with h0 | h0
  · subst h0
    rw [if_pos rfl, beDigits_zero]
    simp only [rjust, List.length_singleton]
    have : List.replicate (w - 1) '0' ++ ['0'] = List.replicate (w - 1 + 1) '0' :=
      (List.replicate_succ' (w - 1) '0').symm
    rw [this]
    congr 1
    omega
  · rw [if_neg (Nat.pos_iff_ne_zero.mp h0)]
    exact rjust_beDigits_aux w n n h0 le_rfl hn

theorem not_lex_nil {α : Type} {r : α → α → Prop} {l : List α} :
    ¬ List.Lex r l [] := by
  intro h
  cases h

theorem lex_cons_iff {α : Type} {r : α → α → Prop} (a b : α) (l₁ l₂ : List α) :
    List.Lex r (a :: l₁) (b :: l₂) ↔ r a b ∨ (a = b ∧ List.Lex r l₁ l₂) := by
  constructor
  · intro h
    cases h with
    | rel h => exact Or.inl h
    | cons h => exact Or.inr ⟨rfl, h⟩
  · rintro (h | ⟨rfl, h⟩)
    · exact List.Lex.rel h
    · exact List.Lex.cons h

theorem lex_append_iff {α : Type} {r : α → α → Prop} :
    ∀ (A C B D : List α), A.length = C.length →
      (List.Lex r (A ++ B) (C ++ D) ↔
        List.Lex r A C ∨ (A = C ∧ List.Lex r B D)) := by
  intro A
  induction A with
  | nil =>
    intro C B D h
    have hC : C = [] := List.eq_nil_of_length_eq_zero h.symm
    subst hC
    constructor
    · intro hx
      exact Or.inr ⟨rfl, hx⟩
    · rintro (hx | ⟨-, hx⟩)
      · exact absurd hx not_lex_nil
      · exact hx
  | cons x A ih =>
    intro C B D h
    cases C with
    | nil => simp at h
    | cons y C =>
      simp only [List.length_cons, Nat.add_right_cancel_iff] at h
      simp only [List.cons_append]
      rw [lex_cons_iff, lex_cons_iff, ih C B D h]
      simp only [List.cons.injEq]
      tauto

theorem lex_singleton_iff {α : Type} {r : α → α → Prop} (a b : α) :
    List.Lex r [a] [b] ↔ r a b := by
  rw [lex_cons_iff]
  constructor
  · rintro (h | ⟨-, h⟩)
    · exact h
    · exact absurd h not_lex_nil
  · exact Or.inl

theorem digitChar_lt_iff :
    ∀ i < 10, ∀ j < 10, (Nat.digitChar i < Nat.digitChar j ↔ i < j) := by decide

theorem digitChar_eq_iff :
    ∀ i < 10, ∀ j < 10, (Nat.digitChar i = Nat.digitChar j ↔ i = j) := by decide

theorem beDigits_inj (w : Nat) :
    ∀ m n, m < 10 ^ w → n < 10 ^ w → beDigits w m = beDigits w n → m = n := by
  induction w with
  | zero =>
    intro m n hm hn _
    simp at hm hn
    omega
  | succ w ih =>
    intro m n hm hn h
    rw [beDigits, beDigits] at h
    obtain ⟨h1, h2⟩ := List.append_inj h (by rw [beDigits_length, beDigits_length])
    have hmq : m / 10 < 10 ^ w := by
      rw [Nat.div_lt_iff_lt_mul (by norm_num)]
      calc m < 10 ^ (w + 1) := hm
      _ = 10 ^ w * 10 := by ring
    have hnq : n / 10 < 10 ^ w := by
      rw [Nat.div_lt_iff_lt_mul (by norm_num)]
      calc n < 10 ^ (w + 1) := hn
      _ = 10 ^ w * 10 := by ring
    have hq := ih (m / 10) (n / 10) hmq hnq h1
    have hd : Nat.digitChar (m % 10) = Nat.digitChar (n % 10) := by
      simpa using h2
    have := (digitChar_eq_iff (m % 10) (Nat.mod_lt m (by norm_num))
      (n % 10) (Nat.mod_lt n (by norm_num))).mp hd
    omega

theorem beDigits_lt_iff (w : Nat) :
    ∀ m n, m < 10 ^ w → n < 10 ^ w →
      (List.Lex (· < ·) (beDigits w m) (beDigits w n) ↔ m < n) := by
  induction w with
  | zero =>
    intro m n hm hn
    simp at hm hn
    subst hm
    subst hn
    simp only [beDigits]
    constructor
    · intro h
      exact absurd h not_lex_nil
    · omega
  | succ w ih =>
    intro m n hm hn
    have hmq : m / 10 < 10 ^ w := by
      rw [Nat.div_lt_iff_lt_mul (by norm_num)]
      calc m < 10 ^ (w + 1) := hm
      _ = 10 ^ w * 10 := by ring
    have hnq : n / 10 < 10 ^ w := by
      rw [Nat.div_lt_iff_lt_mul (by norm_num)]
      calc n < 10 ^ (w + 1) := hn
      _ = 10 ^ w * 10 := by ring
    rw [beDigits, beDigits,
      lex_append_iff _ _ _ _ (by rw [beDigits_length, beDigits_length]),
      ih _ _ hmq hnq, lex_singleton_iff,
      digitChar_lt_iff (m % 10) (Nat.mod_lt m (by norm_num))
        (n % 10) (Nat.mod_lt n (by norm_num))]
    constructor
    · rintro (h | ⟨heq, h⟩)
      · omega
      · have := beDigits_inj w (m / 10) (n / 10) hmq hnq heq
        omega
    · intro h
      rcases Nat.lt_trichotomy (m / 10) (n / 10) with hq | hq | hq
      · exact Or.inl hq
      · exact Or.inr ⟨by rw [hq], by omega⟩
      · omega

/-- Strict lexicographic order on `(partdir_name, partfile_name)` pairs:
the order in which `partfiles` (lines 118-124) enumerates the part
symlinks, via `sorted` on the directory names and then on the file
names inside each directory. -/
def pairLt (a b : Seg × Seg) : Prop :=
  List.Lex (· < ·) a.1 b.1 ∨ (a.1 = b.1 ∧ List.Lex (· < ·) a.2 b.2)

instance : DecidableRel pairLt := fun a b => by
  unfold pairLt
  infer_instance

/-- The zero-padded decimal part number of part `i`
(`add_nomaxbackups`, lines 221-223: `dirlen = 3`,
`partlen = max(dirlen + 1, len(str(maxparts - 1)))`,
`part = str(partnr).rjust(partlen, '0')`). -/
def partStr (maxparts i : Nat) : List Char :=
  rjust (pyStr i) (max 4 (pyStr (maxparts - 1)).length) '0'

/-- The symlink path of part `i` relative to the instance directory,
split as `part[:dirlen] / part[dirlen:]` (line 226). -/
def partName (maxparts i : Nat) : Seg × Seg :=
  ((partStr maxparts i).take 3, (partStr maxparts i).drop 3)

theorem lt_pow_width (maxparts i : Nat) (hi : i < maxparts) :
    i < 10 ^ max 4 (pyStr (maxparts - 1)).length := by
  have h1 : maxparts - 1 < 10 ^ (pyStr (maxparts - 1)).length :=
    pyStr_lt_pow (maxparts - 1)
  have h2 : 10 ^ (pyStr (maxparts - 1)).length
      ≤ 10 ^ max 4 (pyStr (maxparts - 1)).length :=
    Nat.pow_le_pow_right (by norm_num) (le_max_right _ _)
  omega

theorem partStr_eq_beDigits (maxparts i : Nat) (hi : i < maxparts) :
    partStr maxparts i = beDigits (max 4 (pyStr (maxparts - 1)).length) i :=
  rjust_pyStr_eq_beDigits _ _ (by omega) (lt_pow_width maxparts i hi)

theorem partStr_length (maxparts i : Nat) (hi : i < maxparts) :
    (partStr maxparts i).length = max 4 (pyStr (maxparts - 1)).length := by
  rw [partStr_eq_beDigits maxparts i hi, beDigits_length]

theorem partName_lt_iff (maxparts i j : Nat) (hi : i < maxparts) (hj : j < maxparts) :
    pairLt (partName maxparts i) (partName maxparts j) ↔ i < j := by
  have hli := partStr_length maxparts i hi
  have hlj := partStr_length maxparts j hj
  unfold partName pairLt
  have hsplit := lex_append_iff (r := fun a b : Char => a < b)
    ((partStr maxparts i).take 3) ((partStr maxparts j).take 3)
    ((partStr maxparts i).drop 3) ((partStr maxparts j).drop 3)
    (by simp only [List.length_take]; omega)
  rw [List.take_append_drop, List.take_append_drop] at hsplit
  rw [← hsplit, partStr_eq_beDigits maxparts i hi, partStr_eq_beDigits maxparts j hj,
    beDigits_lt_iff _ _ _ (lt_pow_width maxparts i hi) (lt_pow_width maxparts j hj)]

/-- C9: the split of the padded part number yields a 3-character
directory segment and a non-empty file segment, and the pairwise
lexicographic order of the resulting `(partdir_name, partfile_name)`
pairs coincides with the numeric order of the part indices. -/
theorem C9_part_path_split_order (maxparts i j : Nat)
    (hi : i < maxparts) (hj : j < maxparts) :
    (partName maxparts i).1.length = 3 ∧
    (partName maxparts i).2 ≠ [] ∧
    (pairLt (partName maxparts i) (partName maxparts j) ↔ i < j) := by
  have hw : 4 ≤ max 4 (pyStr (maxparts - 1)).length := le_max_left _ _
  have hli := partStr_length maxparts i hi
  refine ⟨?_, ?_, partName_lt_iff maxparts i j hi hj⟩
  · simp only [partName, List.length_take]
    omega
  · have : (partName maxparts i).2.length > 0 := by
      simp only [partName, List.length_drop]
      omega
    exact List.ne_nil_of_length_pos this

/-- Witness for C9 at concrete inputs (`maxparts = 10`, parts 3 and 7). -/
theorem C9_part_path_split_order_witness :
    3 < 10 ∧ 7 < 10 ∧
    ((partName 10 3).1.length = 3 ∧
     (partName 10 3).2 ≠ [] ∧
     (pairLt (partName 10 3) (partName 10 7) ↔ 3 < 7)) :=
  ⟨by decide, by decide, C9_part_path_split_order 10 3 7 (by decide) (by decide)⟩

/-- The path segment `..`. -/
def dotdot : Seg := ['.', '.']

/-- The path segment `.data`. -/
def dataSeg : Seg := ['.', 'd', 'a', 't', 'a']

/-- Relative blob location of digest `d` under `.data`, as the pair of
its two path segments `(d[:3], d[3:])` (`hash_filename`, lines 83-84). -/
def hash_filename (d : Seg) : Seg × Seg := (d.take 3, d.drop 3)

/-- A symlink target, as its list of path segments. -/
abbrev Target := List Seg

/-- Digest reconstruction from a symlink target (`hash_of_filename`,
lines 86-88): `rsplit` on the separator with maxsplit 2 keeps the last
two path segments, which are concatenated; a target with fewer than
three segments makes the triple unpacking fail with a `ValueError`. -/
def hash_of_filename (t : Target) : Except Err Seg :=
  match t.reverse with
  | b :: a :: _ :: _ => .ok (a ++ b)
  | _ => .error .valueError

/-- The symlink target written for digest `d` (line 225:
`os.path.join('..', '..', '..', self.hash_filename(hexdigest))`):
two segments climb out of the part directory and the instance
directory, one out of the name directory. -/
def symlink_target (d : Seg) : Target :=
  [dotdot, dotdot, dotdot, dataSeg, (hash_filename d).1, (hash_filename d).2]

/-- The content-addressed `.data` store: an association list from the
two-segment blob path to the blob bytes. -/
abbrev Store := List ((Seg × Seg) × Bytes)

/-- Write-or-skip of one data blob (`add_nomaxbackups`, lines 228-232):
if the blob file exists and its size equals the part length, skip;
otherwise (over)write it via `Util.write_file`. -/
def put_blob (store : Store) (d : Seg) (data : Bytes) : Store :=
  match lookupA store (hash_filename d) with
  | some b =>
    if b.length = data.length then store else setA store (hash_filename d) data
  | none => (hash_filename d, data) :: store

/-- One backup instance directory: the part symlinks in creation order
(symlink path relative to the instance as a `(partdir, partfile)`
pair, and the link target), plus the parsed contents of the `size`
and `hash` files when present.  The `size` file holds a decimal
integer and the `hash` file a hex digest, each with a trailing
newline; the model stores the parsed values. -/
structure Instance where
  parts : List ((Seg × Seg) × Target)
  sizeF : Option Int
  hashF : Option Seg
  deriving DecidableEq, Repr

/-- The repository: the name directories other than `.data` (each
mapping timestamp directory names to instances, in directory-listing
order) together with the `.data` store. -/
structure Repo where
  names : List (Seg × List (Seg × Instance))
  store : Store
  deriving DecidableEq, Repr

/-- Name validation (`validate_name`, lines 333-343): non-empty, no
path separator (`os.path.dirname` is non-empty exactly when the
string contains one), first character not `.`, `_` or `-`, and not
ending with the snapshot suffix. -/
def validName (cfg : Config) (n : Seg) : Bool :=
  match n with
  | [] => false
  | c :: _ =>
    !(n.contains '/') && !(c = '.' || c = '_' || c = '-') &&
      !(List.isSuffixOf cfg.snapshotsuffix n)

/-- Timestamp validation (`validate_timestamp`, lines 365-369): the
`YYYY-MM-DDThh:mm:ss` shape check. -/
def validTimestamp (t : Seg) : Bool :=
  match t with
  | [y1, y2, y3, y4, c1, m1, m2, c2, d1, d2, c3, h1, h2, c4, n1, n2, c5, s1, s2] =>
    y1.isDigit && y2.isDigit && y3.isDigit && y4.isDigit &&
    m1.isDigit && m2.isDigit && d1.isDigit && d2.isDigit &&
    h1.isDigit && h2.isDigit && n1.isDigit && n2.isDigit &&
    s1.isDigit && s2.isDigit &&
    c1 = '-' && c2 = '-' && c3 = 'T' && c4 = ':' && c5 = ':'
  | _ => false

/-- Reinsert the two colons into a timestamp directory name
(`timestamps`, line 112: `dir[:13] + ':' + dir[13:15] + ':' + dir[15:]`). -/
def insertColons (d : Seg) : Seg :=
  d.take 13 ++ ':' :: ((d.drop 13).take 2 ++ ':' :: d.drop 15)

/-- Python `timestamp.replace(':', '')` (line 100), which removes every
colon. -/
def stripColons (t : Seg) : Seg := t.filter (fun c => c ≠ ':')

/-- Python `list.sort(reverse=True)` on strings: descending
lexicographic sort. -/
def sortDesc (l : List Seg) : List Seg := List.insertionSort (· ≥ ·) l

/-- List a name directory and return its instance timestamps, newest
first (`timestamps`, lines 107-116); a missing name directory yields
the empty list. -/
def timestamps (repo : Repo) (name : Seg) : List Seg :=
  match lookupA repo.names name with
  | none => []
  | some insts => sortDesc (insts.map (fun e => insertColons e.1))

/-- Look up the instance stored at `R/<name>/<timestamp with colons
removed>` (`instancedir`, lines 99-100); `none` models the `OSError`
of listing a missing directory. -/
def findInst (repo : Repo) (name ts : Seg) : Option Instance :=
  match lookupA repo.names name with
  | none => none
  | some insts => lookupA insts (stripColons ts)

/-- Weak ordering of part symlinks by `(partdir, partfile)` name. -/
def partPairLe (a b : (Seg × Seg) × Target) : Prop :=
  a.1 = b.1 ∨ pairLt a.1 b.1

instance : DecidableRel partPairLe := fun a b => by
  unfold partPairLe
  infer_instance

/-- Enumerate the part symlinks of an instance sorted by directory
segment and then by file segment (`partfiles`, lines 118-124).  The
code lists the part directories with `sorted`, then the files inside
each with `sorted`; on the flat list of `(partdir, partfile)` pairs
this nested enumeration is exactly the lexicographic sort. -/
def partfiles (inst : Instance) : List ((Seg × Seg) × Target) :=
  List.insertionSort partPairLe inst.parts

/-- Dereference a part symlink (`os.path.getsize` on line 129 and
`open` on line 288 both follow the link).  A symlink placed at
`R/<name>/<ts>/<NNN>/<MMM>` whose target has the canonical shape
`../../../.data/<a>/<b>` resolves to the blob stored under `(a, b)`;
any other target points outside the modelled `.data` tree and is
treated as dangling. -/
def resolveTarget (store : Store) (t : Target) : Option Bytes :=
  match t with
  | [u1, u2, u3, dd, a, b] =>
    if u1 = dotdot ∧ u2 = dotdot ∧ u3 = dotdot ∧ dd = dataSeg then
      lookupA store (a, b)
    else none
  | _ => none

/-- Sum the dereferenced sizes of the listed part symlinks; a dangling
link raises `OSError` (`os.path.getsize`, lines 128-131). -/
def sumPartSizes (store : Store) : List ((Seg × Seg) × Target) → Except Err Nat
  | [] => .ok 0
  | e :: es =>
    match resolveTarget store e.2 with
    | none => .error .osError
    | some b =>
      match sumPartSizes store es with
      | .ok rest => .ok (b.length + rest)
      | .error err => .error err

/-- Compute `(actual, expected)` for one instance (`sizes`, lines
126-144).  Both required files `size` and `hash` (lines 102-105) must
exist for `expected` to be parsed; a negative parsed size raises
`ValueError` (line 141) and `actual > expected` raises the integrity
`RuntimeError` (line 143). -/
def sizes (repo : Repo) (name ts : Seg) : Except Err (Nat × Option Int) :=
  match findInst repo name ts with
  | none => .error .osError
  | some inst =>
    match sumPartSizes repo.store (partfiles inst) with
    | .error err => .error err
    | .ok actual =>
      match inst.sizeF, inst.hashF with
      | some e, some _ =>
        if e < 0 then .error .valueError
        else if (actual : Int) > e then .error .integrity
        else .ok (actual, some e)
      | _, _ => .ok (actual, none)

/-- The completedness test `size == expected_size` (`remove_obsolete`
line 156, `status` line 263, `recover_latest` line 310): true exactly
when `expected` is present and equals `actual`. -/
def isCompleted (repo : Repo) (name ts : Seg) : Bool :=
  match sizes repo name ts with
  | .ok (a, some e) => decide ((a : Int) = e)
  | _ => false

/-- The data of one `status` line for the instance of `name` at `ts`
(lines 261-276): the reported expected size (`none` prints
`(unknown)`), the percentage, and whether the `incomplete` marker is
appended.  Python 2 integer division on `100 * size / expected_size`
floors, which `Int.fdiv` models. -/
def statusLine (repo : Repo) (name ts : Seg) : Except Err (Option Int × Int × Bool) :=
  match sizes repo name ts with
  | .error err => .error err
  | .ok (size, expected) =>
    let markIncomplete : Bool :=
      match expected with
      | some e => decide (¬ ((size : Int) = e))
      | none => true
    match expected with
    | none => .ok (none, 0, markIncomplete)
    | some e =>
      if e = 0 then .ok (some e, 100, markIncomplete)
      else .ok (some e, Int.fdiv (100 * size) e, markIncomplete)

theorem sizes_ok_bounds (repo : Repo) (name ts : Seg) (a : Nat) (e : Int)
    (h : sizes repo name ts = .ok (a, some e)) : 0 ≤ e ∧ (a : Int) ≤ e := by
  unfold sizes at h
  split at h
  · cases h
  · split at h
    · cases h
    · split at h
      · split_ifs at h with h1 h2
        simp only [Except.ok.injEq, Prod.mk.injEq, Option.some.injEq] at h
        obtain ⟨ha, he⟩ := h
        subst ha
        subst he
        omega
      · simp at h

/-- C7: `sizes` returns `(actual, expected)` with `actual` the sum of
the dereferenced part-symlink sizes; `expected` is the integer parsed
from the `size` file when both `size` and `hash` files exist, `None`
when either is missing; the call fails with `ValueError` when the
parsed size is negative and with the integrity error when `actual`
exceeds it. -/
theorem C7_sizes_spec (repo : Repo) (name ts : Seg) (inst : Instance) (a : Nat)
    (hinst : findInst repo name ts = some inst)
    (ha : sumPartSizes repo.store (partfiles inst) = .ok a) :
    (∀ (e : Int) (hx : Seg), inst.sizeF = some e → inst.hashF = some hx →
        ((0 ≤ e → (a : Int) ≤ e → sizes repo name ts = .ok (a, some e)) ∧
         (e < 0 → sizes repo name ts = .error .valueError) ∧
         (0 ≤ e → (a : Int) > e → sizes repo name ts = .error .integrity))) ∧
    ((inst.sizeF = none ∨ inst.hashF = none) → sizes repo name ts = .ok (a, none)) := by
  constructor
  · intro e hx he hh
    simp only [sizes, hinst, ha, he, hh]
    refine ⟨?_, ?_, ?_⟩
    · intro h1 h2
      rw [if_neg (by omega), if_neg (by omega)]
    · intro h1
      rw [if_pos h1]
    · intro h1 h2
      rw [if_neg (by omega), if_pos h2]
  · intro hmiss
    cases hsf : inst.sizeF with
    | none =>
      cases hhf : inst.hashF <;> simp only [sizes, hinst, ha, hsf, hhf]
    | some e0 =>
      cases hhf : inst.hashF with
      | none => simp only [sizes, hinst, ha, hsf, hhf]
      | some h0 =>
        rcases hmiss with h1 | h1
        · rw [hsf] at h1; cases h1
        · rw [hhf] at h1; cases h1

/-- A sample timestamp `2013-01-02T03:04:05`. -/
def tsW : Seg :=
  ['2', '0', '1', '3', '-', '0', '1', '-', '0', '2', 'T', '0', '3', ':', '0', '4', ':', '0', '5']

/-- A sample digest. -/
def digestW : Seg := ['a', 'b', 'c', 'd']

/-- A sample completed instance with one part symlink. -/
def instW7 : Instance :=
  { parts := [((['0', '0', '0'], ['0']), symlink_target digestW)]
    sizeF := some 2
    hashF := some digestW }

/-- A sample repository holding `instW7` under name `x` with the
referenced blob in the store. -/
def repoW7 : Repo :=
  { names := [(['x'], [(stripColons tsW, instW7)])]
    store := [((['a', 'b', 'c'], ['d']), [7, 8])] }

/-- Witness for C7 at a concrete repository. -/
theorem C7_sizes_spec_witness :
    findInst repoW7 ['x'] tsW = some instW7 ∧
    sumPartSizes repoW7.store (partfiles instW7) = .ok 2 ∧
    ((∀ (e : Int) (hx : Seg), instW7.sizeF = some e → instW7.hashF = some hx →
        ((0 ≤ e → (2 : Int) ≤ e → sizes repoW7 ['x'] tsW = .ok (2, some e)) ∧
         (e < 0 → sizes repoW7 ['x'] tsW = .error .valueError) ∧
         (0 ≤ e → (2 : Int) > e → sizes repoW7 ['x'] tsW = .error .integrity))) ∧
     ((instW7.sizeF = none ∨ instW7.hashF = none) →
        sizes repoW7 ['x'] tsW = .ok (2, none))) :=
  ⟨rfl, rfl, C7_sizes_spec repoW7 ['x'] tsW instW7 2 rfl rfl⟩

/-- C8: the status percentage is the floor of `100·actual/expected`
(Python 2 floor division, which on these nonnegative values equals
the truncating division and the natural-number division); it is 100
when `expected = 0`, 0 when `expected` is unknown, and the
`incomplete` marker appears exactly when `actual` differs from
`expected`. -/
theorem C8_status_percentage (repo : Repo) (name ts : Seg) (a : Nat) :
    (sizes repo name ts = .ok (a, none) →
      statusLine repo name ts = .ok (none, 0, true)) ∧
    (∀ e : Int, sizes repo name ts = .ok (a, some e) →
      (e = 0 → statusLine repo name ts = .ok (some 0, 100, decide (¬((a : Int) = e)))) ∧
      (e ≠ 0 →
        statusLine repo name ts
          = .ok (some e, Int.fdiv (100 * (a : Int)) e, decide (¬((a : Int) = e))) ∧
        Int.fdiv (100 * (a : Int)) e = Int.tdiv (100 * (a : Int)) e ∧
        Int.fdiv (100 * (a : Int)) e = ((100 * a) / e.toNat : Nat))) := by
  constructor
  · intro h
    simp only [statusLine, h]
  · intro e h
    have hb := sizes_ok_bounds repo name ts a e h
    constructor
    · intro he
      subst he
      simp [statusLine, h]
    · intro he
      refine ⟨?_, ?_, ?_⟩
      · simp only [statusLine, h, if_neg he]
      · exact Int.fdiv_eq_tdiv (by positivity) hb.1
      · rw [Int.fdiv_eq_tdiv (by positivity) hb.1]
        conv_rhs => rw [Int.ofNat_tdiv, Int.toNat_of_nonneg hb.1]
        have hcast : ((100 * a : Nat) : Int) = 100 * (a : Int) := by
          push_cast
          ring
        rw [hcast]

/-- Witness for C8 at a concrete repository. -/
theorem C8_status_percentage_witness :
    sizes repoW7 ['x'] tsW = .ok (2, some 2) ∧
    statusLine repoW7 ['x'] tsW = .ok (some 2, 100, false) := by
  have h : sizes repoW7 ['x'] tsW = .ok (2, some 2) := rfl
  have h2 := ((C8_status_percentage repoW7 ['x'] tsW 2).2 2 h).2 (by decide)
  refine ⟨h, ?_⟩
  rw [h2.1]
  rfl

/-- Split the input stream into the successive reads of at most
`partsize` bytes performed by the ingest loop
(`input_io.read(self.partsize)`, line 214; an empty read ends the
loop).  Structural recursion on a fuel argument bounding the length,
so that the definition reduces inside the kernel. -/
def chunksAux (psz : Nat) : Nat → Bytes → List Bytes
  | 0, _ => []
  | fuel + 1, s =>
    if s = [] then [] else s.take psz :: chunksAux psz fuel (s.drop psz)

/-- All parts read from an input stream. -/
def chunks (psz : Nat) (s : Bytes) : List Bytes := chunksAux psz s.length s

/-- The per-part work of the ingest loop of `add_nomaxbackups` (lines
213-232): check the part counter against `maxparts`, compute the part
digest, create the part symlink, then write-or-skip the data blob.
Returns the created symlink entries in creation order together with
the final store.  `hashFn` stands for
`hashlib.new(self.algorithm, data).hexdigest()`. -/
def ingestLoop (hashFn : Bytes → Seg) (maxparts : Nat) :
    Nat → Store → List Bytes → Except Err (List ((Seg × Seg) × Target) × Store)
  | _, store, [] => .ok ([], store)
  | i, store, data :: rest =>
    if maxparts ≤ i then .error .tooManyParts
    else
      match ingestLoop hashFn maxparts (i + 1) (put_blob store (hashFn data) data) rest with
      | .error err => .error err
      | .ok (entries, store2) =>
        .ok ((partName maxparts i, symlink_target (hashFn data)) :: entries, store2)

/-- The symlink entries created by a successful ingest loop starting at
part index `i` (proof-side normal form of the first component of
`ingestLoop`). -/
def ingestEntries (hashFn : Bytes → Seg) (maxparts : Nat) :
    Nat → List Bytes → List ((Seg × Seg) × Target)
  | _, [] => []
  | i, data :: rest =>
    (partName maxparts i, symlink_target (hashFn data)) :: ingestEntries hashFn maxparts (i + 1) rest

/-- Record a freshly created instance directory under its name,
creating the name directory when it does not exist yet (the
`os.makedirs` performed by the first `Util.symlink` or
`Util.write_file` inside the new instance). -/
def insertInst (names : List (Seg × List (Seg × Instance))) (name tsdir : Seg)
    (inst : Instance) : List (Seg × List (Seg × Instance)) :=
  match names with
  | [] => [(name, [(tsdir, inst)])]
  | e :: es =>
    if e.1 = name then (e.1, e.2 ++ [(tsdir, inst)]) :: es
    else e :: insertInst es name tsdir inst

/-- Ingest one input stream as a new instance (`add_nomaxbackups`,
lines 200-234).  The clock timestamp is a parameter; the streaming
total digest fed with every chunk equals the digest of their
concatenation, and the `hash` and `size` files are written at the
end (lines 233-234), their parsed contents being the total digest
and the total byte count. -/
def add_nomaxbackups (hashFn : Bytes → Seg) (cfg : Config) (repo : Repo)
    (name ts : Seg) (input : Bytes) : Except Err Repo :=
  if ¬ validName cfg name then .error .typeError
  else if ¬ validTimestamp ts then .error .typeError
  else if (findInst repo name ts).isSome then .error .alreadyExists
  else
    match ingestLoop hashFn cfg.maxparts 0 repo.store (chunks cfg.partsize input) with
    | .error err => .error err
    | .ok (entries, store2) =>
      .ok { names := insertInst repo.names name (stripColons ts)
              { parts := entries
                sizeF := some (((chunks cfg.partsize input).map List.length).sum : Int)
                hashF := some (hashFn (chunks cfg.partsize input).flatten) }
            store := store2 }

/-- Open and read the blob behind each listed part symlink in order
(`recover_nosizecheck`, lines 286-289); a dangling link raises
`OSError` on `open`. -/
def readParts (store : Store) : List ((Seg × Seg) × Target) → Except Err (List Bytes)
  | [] => .ok []
  | e :: es =>
    match resolveTarget store e.2 with
    | none => .error .osError
    | some b =>
      match readParts store es with
      | .error err => .error err
      | .ok bs => .ok (b :: bs)

/-- Stream an instance back and verify its digest
(`recover_nosizecheck`, lines 281-295): write every part blob to the
output in `partfiles` order while feeding the running digest, then
compare against the `hash` file (trailing newline stripped).  The
returned bytes are the output stream contents on success. -/
def recover_nosizecheck (hashFn : Bytes → Seg) (cfg : Config) (repo : Repo)
    (name ts : Seg) : Except Err Bytes :=
  if ¬ validName cfg name then .error .typeError
  else if ¬ validTimestamp ts then .error .typeError
  else
    match findInst repo name ts with
    | none => .error .osError
    | some inst =>
      match readParts repo.store (partfiles inst) with
      | .error err => .error err
      | .ok datas =>
        match inst.hashF with
        | none => .error .osError
        | some expected =>
          if hashFn datas.flatten = expected then .ok datas.flatten
          else .error .integrity

/-- The scan of `recover_latest` (lines 307-313): walk the timestamps
newest first and recover the first completed instance
(`size == expected_size`); fail when none is completed. -/
def recoverLatestLoop (hashFn : Bytes → Seg) (cfg : Config) (repo : Repo)
    (name : Seg) : List Seg → Except Err Bytes
  | [] => .error .noCompleted
  | t :: rest =>
    match sizes repo name t with
    | .error err => .error err
    | .ok (a, expected) =>
      if expected = some (a : Int) then recover_nosizecheck hashFn cfg repo name t
      else recoverLatestLoop hashFn cfg repo name rest

/-- Recover the newest completed instance of a name (`recover_latest`,
lines 305-313). -/
def recover_latest (hashFn : Bytes → Seg) (cfg : Config) (repo : Repo)
    (name : Seg) : Except Err Bytes :=
  if ¬ validName cfg name then .error .typeError
  else recoverLatestLoop hashFn cfg repo name (timestamps repo name)

/-- The content-addressed invariant of the `.data` store: every stored
blob sits at the blob path of the digest of its own contents. -/
def contentAddressed (hashFn : Bytes → Seg) (store : Store) : Prop :=
  ∀ e ∈ store, e.1 = hash_filename (hashFn e.2)

/-- A concrete injective digest function over byte lists, used by the
witnesses in place of a cryptographic hash: each byte becomes a run
of `a` characters closed by one `b`. -/
def encBytes (bs : Bytes) : Seg :=
  (bs.map (fun n => List.replicate n 'a' ++ ['b'])).flatten

theorem lookupA_mem {κ ν : Type} [DecidableEq κ] :
    ∀ (l : List (κ × ν)) (k : κ) (v : ν), lookupA l k = some v → (k, v) ∈ l := by
  intro l
  induction l with
  | nil => intro k v h; cases h
  | cons e es ih =>
    intro k v h
    by_cases he : e.1 = k
    · rw [lookupA, if_pos he] at h
      injection h with h
      have : e = (k, v) := by
        obtain ⟨k0, v0⟩ := e
        simp only at he h
        rw [he, h]
      rw [← this]
      exact List.mem_cons_self _ _
    · rw [lookupA, if_neg he] at h
      exact List.mem_cons_of_mem _ (ih k v h)

theorem setA_mem {κ ν : Type} [DecidableEq κ] :
    ∀ (l : List (κ × ν)) (k : κ) (v : ν) (e : κ × ν),
      e ∈ setA l k v → e = (k, v) ∨ e ∈ l := by
  intro l
  induction l with
  | nil => intro k v e h; cases h
  | cons e0 es ih =>
    intro k v e h
    rw [setA] at h
    split_ifs at h with he
    · rcases List.mem_cons.mp h with h1 | h1
      · exact Or.inl h1
      · exact Or.inr (List.mem_cons_of_mem _ h1)
    · rcases List.mem_cons.mp h with h1 | h1
      · exact Or.inr (h1 ▸ List.mem_cons_self _ _)
      · rcases ih k v e h1 with h2 | h2
        · exact Or.inl h2
        · exact Or.inr (List.mem_cons_of_mem _ h2)

theorem lookupA_setA_self {κ ν : Type} [DecidableEq κ] :
    ∀ (l : List (κ × ν)) (k : κ) (v w : ν), lookupA l k = some w →
      lookupA (setA l k v) k = some v := by
  intro l
  induction l with
  | nil => intro k v w h; cases h
  | cons e es ih =>
    intro k v w h
    by_cases he : e.1 = k
    · rw [setA, if_pos he, lookupA, if_pos rfl]
    · rw [lookupA, if_neg he] at h
      rw [setA, if_neg he, lookupA, if_neg he]
      exact ih k v w h

theorem lookupA_setA_other {κ ν : Type} [DecidableEq κ] :
    ∀ (l : List (κ × ν)) (k k2 : κ) (v : ν), k2 ≠ k →
      lookupA (setA l k v) k2 = lookupA l k2 := by
  intro l
  induction l with
  | nil => intro k k2 v _; rfl
  | cons e es ih =>
    intro k k2 v hne
    by_cases he : e.1 = k
    · have h1 : ¬ ((k, v).1 = k2) := fun hx => hne hx.symm
      have h2 : ¬ (e.1 = k2) := fun hx => hne (hx.symm.trans he)
      rw [setA, if_pos he, lookupA, if_neg h1, lookupA, if_neg h2]
    · rw [setA, if_neg he, lookupA, lookupA]
      by_cases he2 : e.1 = k2
      · rw [if_pos he2, if_pos he2]
      · rw [if_neg he2, if_neg he2]
        exact ih k k2 v hne

theorem hash_filename_inj (d1 d2 : Seg) (h : hash_filename d1 = hash_filename d2) :
    d1 = d2 := by
  unfold hash_filename at h
  obtain ⟨h1, h2⟩ := Prod.mk.injEq _ _ _ _ ▸ h
  calc d1 = d1.take 3 ++ d1.drop 3 := (List.take_append_drop 3 d1).symm
  _ = d2.take 3 ++ d2.drop 3 := by rw [h1, h2]
  _ = d2 := List.take_append_drop 3 d2

theorem contentAddressed_lookup (hashFn : Bytes → Seg) (store : Store)
    (hcai : contentAddressed hashFn store) (k : Seg × Seg) (b : Bytes)
    (h : lookupA store k = some b) : k = hash_filename (hashFn b) :=
  hcai (k, b) (lookupA_mem store k b h)

/-- The write-or-skip step leaves a blob of the part length under the
digest path, whatever was there before. -/
theorem put_blob_lookup_self (store : Store) (d : Seg) (data : Bytes) :
    ∃ c, lookupA (put_blob store d data) (hash_filename d) = some c ∧
      c.length = data.length ∧
      (c = data ∨ lookupA store (hash_filename d) = some c) := by
  unfold put_blob
  cases h : lookupA store (hash_filename d) with
  | none =>
    dsimp only
    refine ⟨data, ?_, rfl, Or.inl rfl⟩
    rw [lookupA, if_pos rfl]
  | some b =>
    dsimp only
    by_cases hl : b.length = data.length
    · rw [if_pos hl]
      exact ⟨b, h, hl, Or.inr rfl⟩
    · rw [if_neg hl]
      exact ⟨data, lookupA_setA_self store _ data b h, rfl, Or.inl rfl⟩

theorem put_blob_lookup_other (store : Store) (d : Seg) (data : Bytes)
    (k : Seg × Seg) (hk : k ≠ hash_filename d) :
    lookupA (put_blob store d data) k = lookupA store k := by
  unfold put_blob
  cases h : lookupA store (hash_filename d) with
  | none =>
    dsimp only
    rw [lookupA, if_neg (fun hx => hk hx.symm)]
  | some b =>
    dsimp only
    by_cases hl : b.length = data.length
    · rw [if_pos hl]
    · rw [if_neg hl]
      exact lookupA_setA_other store _ k data hk

theorem put_blob_cai (hashFn : Bytes → Seg) (store : Store) (data : Bytes)
    (hcai : contentAddressed hashFn store) :
    contentAddressed hashFn (put_blob store (hashFn data) data) := by
  unfold put_blob
  cases h : lookupA store (hash_filename (hashFn data)) with
  | none =>
    dsimp only
    intro e he
    rcases List.mem_cons.mp he with h1 | h1
    · rw [h1]
    · exact hcai e h1
  | some b =>
    dsimp only
    by_cases hl : b.length = data.length
    · rw [if_pos hl]
      exact hcai
    · rw [if_neg hl]
      intro e he
      rcases setA_mem store _ data e he with h1 | h1
      · rw [h1]
      · exact hcai e h1

/-- Under the content-addressed invariant and an injective digest
function, a blob already stored under the digest path of `data` must
be `data` itself, so the write-or-skip step always leaves exactly
`data` there and never disturbs any other entry. -/
theorem put_blob_cai_self (hashFn : Bytes → Seg) (hinj : Function.Injective hashFn)
    (store : Store) (data : Bytes) (hcai : contentAddressed hashFn store) :
    lookupA (put_blob store (hashFn data) data) (hash_filename (hashFn data)) = some data := by
  obtain ⟨c, hc, hlen, hcase⟩ := put_blob_lookup_self store (hashFn data) data
  rcases hcase with h1 | h1
  · rw [hc, h1]
  · have h2 := contentAddressed_lookup hashFn store hcai _ c h1
    have h3 : c = data := hinj (hash_filename_inj _ _ h2.symm)
    rw [hc, h3]

theorem put_blob_cai_pres (hashFn : Bytes → Seg) (hinj : Function.Injective hashFn)
    (store : Store) (data : Bytes) (hcai : contentAddressed hashFn store)
    (k : Seg × Seg) (v : Bytes) (h : lookupA store k = some v) :
    lookupA (put_blob store (hashFn data) data) k = some v := by
  by_cases hk : k = hash_filename (hashFn data)
  · subst hk
    have h2 := contentAddressed_lookup hashFn store hcai _ v h
    have h3 : v = data := hinj (hash_filename_inj _ _ h2.symm)
    rw [put_blob_cai_self hashFn hinj store data hcai, h3]
  · rw [put_blob_lookup_other store _ data k hk]
    exact h

/-- Structure of a successful ingest loop under the content-addressed
invariant with an injective digest function: the invariant is
preserved, no existing blob entry changes, every ingested part is
retrievable under its digest path, the created symlink entries are
`ingestEntries`, and every used part index stayed below `maxparts`. -/
theorem ingestLoop_cai (hashFn : Bytes → Seg) (hinj : Function.Injective hashFn)
    (mp : Nat) :
    ∀ (parts : List Bytes) (i : Nat) (store : Store)
      (entries : List ((Seg × Seg) × Target)) (store2 : Store),
      contentAddressed hashFn store →
      ingestLoop hashFn mp i store parts = .ok (entries, store2) →
      contentAddressed hashFn store2 ∧
      (∀ k v, lookupA store k = some v → lookupA store2 k = some v) ∧
      (∀ p ∈ parts, lookupA store2 (hash_filename (hashFn p)) = some p) ∧
      entries = ingestEntries hashFn mp i parts ∧
      (∀ j, j < parts.length → i + j < mp) := by
  intro parts
  induction parts with
  | nil =>
    intro i store entries store2 hcai h
    rw [ingestLoop] at h
    injection h with h
    obtain ⟨h1, h2⟩ := Prod.mk.injEq _ _ _ _ ▸ h
    subst h1
    subst h2
    refine ⟨hcai, fun k v hv => hv, by simp, rfl, by simp⟩
  | cons data rest ih =>
    intro i store entries store2 hcai h
    rw [ingestLoop] at h
    split_ifs at h with hmp
    cases h2 : ingestLoop hashFn mp (i + 1) (put_blob store (hashFn data) data) rest with
    | error err => rw [h2] at h; cases h
    | ok pr =>
      obtain ⟨entries1, store1⟩ := pr
      rw [h2] at h
      dsimp only at h
      injection h with h
      obtain ⟨h3, h4⟩ := Prod.mk.injEq _ _ _ _ ▸ h
      subst h3
      subst h4
      have hcai1 : contentAddressed hashFn (put_blob store (hashFn data) data) :=
        put_blob_cai hashFn store data hcai
      obtain ⟨ha, hb, hc, hd, he⟩ :=
        ih (i + 1) (put_blob store (hashFn data) data) entries1 store1 hcai1 h2
      refine ⟨ha, ?_, ?_, ?_, ?_⟩
      · intro k v hv
        exact hb k v (put_blob_cai_pres hashFn hinj store data hcai k v hv)
      · intro p hp
        rcases List.mem_cons.mp hp with h5 | h5
        · subst h5
          exact hb _ p (put_blob_cai_self hashFn hinj store p hcai)
        · exact hc p h5
      · rw [ingestEntries, hd]
      · intro j hj
        cases j with
        | zero => omega
        | succ j0 =>
          have := he j0 (by simpa using hj)
          omega

theorem ingestEntries_mem (hashFn : Bytes → Seg) (mp : Nat) :
    ∀ (parts : List Bytes) (i : Nat) (e : (Seg × Seg) × Target),
      e ∈ ingestEntries hashFn mp i parts →
      ∃ j, j < parts.length ∧ e.1 = partName mp (i + j) := by
  intro parts
  induction parts with
  | nil => intro i e h; cases h
  | cons data rest ih =>
    intro i e h
    rw [ingestEntries] at h
    rcases List.mem_cons.mp h with h1 | h1
    · exact ⟨0, by simp, by rw [h1]; simp⟩
    · obtain ⟨j, hj, hje⟩ := ih (i + 1) e h1
      exact ⟨j + 1, by simpa using hj, by rw [hje]; congr 1; omega⟩

theorem ingestEntries_sorted (hashFn : Bytes → Seg) (mp : Nat) :
    ∀ (parts : List Bytes) (i : Nat),
      (∀ j, j < parts.length → i + j < mp) →
      List.Sorted partPairLe (ingestEntries hashFn mp i parts) := by
  intro parts
  induction parts with
  | nil => intro i _; exact List.sorted_nil
  | cons data rest ih =>
    intro i hmp
    rw [ingestEntries]
    rw [List.sorted_cons]
    constructor
    · intro b hb
      obtain ⟨j, hj, hje⟩ := ingestEntries_mem hashFn mp rest (i + 1) b hb
      right
      rw [hje]
      have hi : i < mp := by
        have := hmp 0 (by simp)
        omega
      have hij : i + 1 + j < mp := by
        have := hmp (j + 1) (by simpa using hj)
        omega
      exact (partName_lt_iff mp i (i + 1 + j) hi hij).mpr (by omega)
    · exact ih (i + 1) (fun j hj => by
        have := hmp (j + 1) (by simpa using hj)
        omega)

theorem partfiles_ingestEntries (hashFn : Bytes → Seg) (mp : Nat)
    (parts : List Bytes) (i : Nat) (sizeF : Option Int) (hashF : Option Seg)
    (hmp : ∀ j, j < parts.length → i + j < mp) :
    partfiles { parts := ingestEntries hashFn mp i parts
                sizeF := sizeF, hashF := hashF } =
      ingestEntries hashFn mp i parts :=
  List.Sorted.insertionSort_eq (ingestEntries_sorted hashFn mp parts i hmp)

theorem resolveTarget_symlink_target (store : Store) (d : Seg) :
    resolveTarget store (symlink_target d) = lookupA store (hash_filename d) := rfl

theorem readParts_ingestEntries (hashFn : Bytes → Seg) (mp : Nat) (store2 : Store) :
    ∀ (parts : List Bytes) (i : Nat),
      (∀ p ∈ parts, lookupA store2 (hash_filename (hashFn p)) = some p) →
      readParts store2 (ingestEntries hashFn mp i parts) = .ok parts := by
  intro parts
  induction parts with
  | nil => intro i _; rfl
  | cons data rest ih =>
    intro i hlk
    rw [ingestEntries, readParts]
    dsimp only
    rw [resolveTarget_symlink_target, hlk data (List.mem_cons_self _ _),
      ih (i + 1) (fun p hp => hlk p (List.mem_cons_of_mem _ hp))]

theorem sumPartSizes_of_readParts (store : Store) :
    ∀ (l : List ((Seg × Seg) × Target)) (bs : List Bytes),
      readParts store l = .ok bs →
      sumPartSizes store l = .ok (bs.map List.length).sum := by
  intro l
  induction l with
  | nil =>
    intro bs h
    rw [readParts] at h
    injection h with h
    subst h
    rfl
  | cons e es ih =>
    intro bs h
    rw [readParts] at h
    rw [sumPartSizes]
    cases hr : resolveTarget store e.2 with
    | none => rw [hr] at h; cases h
    | some b =>
      rw [hr] at h
      dsimp only at h ⊢
      cases h2 : readParts store es with
      | error err => rw [h2] at h; cases h
      | ok bs2 =>
        rw [h2] at h
        dsimp only at h
        injection h with h
        subst h
        rw [ih bs2 h2]
        dsimp only
        rw [List.map_cons, List.sum_cons]

theorem chunksAux_flatten (psz : Nat) (hpsz : 0 < psz) :
    ∀ (fuel : Nat) (s : Bytes), s.length ≤ fuel →
      (chunksAux psz fuel s).flatten = s := by
  intro fuel
  induction fuel with
  | zero =>
    intro s hs
    have : s = [] := List.eq_nil_of_length_eq_zero (by omega)
    subst this
    rfl
  | succ f ih =>
    intro s hs
    rw [chunksAux]
    by_cases h : s = []
    · rw [if_pos h, List.flatten_nil, h]
    · rw [if_neg h]
      have hlen : 0 < s.length := List.length_pos.mpr h
      have hdrop : (s.drop psz).length ≤ f := by
        rw [List.length_drop]
        omega
      rw [List.flatten_cons, ih (s.drop psz) hdrop, List.take_append_drop]

theorem chunks_flatten (psz : Nat) (hpsz : 0 < psz) (s : Bytes) :
    (chunks psz s).flatten = s :=
  chunksAux_flatten psz hpsz s.length s le_rfl

theorem lookupA_insertInst_self (names : List (Seg × List (Seg × Instance)))
    (name tsdir : Seg) (inst : Instance) (h : lookupA names name = none) :
    lookupA (insertInst names name tsdir inst) name = some [(tsdir, inst)] := by
  induction names with
  | nil => rw [insertInst, lookupA, if_pos rfl]
  | cons e es ih =>
    by_cases he : e.1 = name
    · rw [lookupA, if_pos he] at h
      cases h
    · rw [lookupA, if_neg he] at h
      rw [insertInst, if_neg he, lookupA, if_neg he]
      exact ih h

theorem stripColons_no_colon (t : Seg) : ∀ c ∈ stripColons t, ¬ c = ':' := by
  intro c hc
  unfold stripColons at hc
  have := List.mem_filter.mp hc
  simpa using this.2

theorem filter_no_colon_eq (l : Seg) (h : ∀ c ∈ l, ¬ c = ':') :
    l.filter (fun c => c ≠ ':') = l :=
  List.filter_eq_self.mpr (fun c hc => by simpa using h c hc)

theorem stripColons_insertColons (d : Seg) (hd : ∀ c ∈ d, ¬ c = ':') :
    stripColons (insertColons d) = d := by
  unfold stripColons insertColons
  rw [List.filter_append, List.filter_cons]
  rw [if_neg (by simp)]
  rw [List.filter_append, List.filter_cons]
  rw [if_neg (by simp)]
  have h1 : ∀ c ∈ d.take 13, ¬ c = ':' :=
    fun c hc => hd c ((List.take_sublist 13 d).mem hc)
  have h2 : ∀ c ∈ (d.drop 13).take 2, ¬ c = ':' :=
    fun c hc => hd c ((List.drop_sublist 13 d).mem ((List.take_sublist 2 _).mem hc))
  have h3 : ∀ c ∈ d.drop 15, ¬ c = ':' :=
    fun c hc => hd c ((List.drop_sublist 15 d).mem hc)
  rw [filter_no_colon_eq _ h1, filter_no_colon_eq _ h2, filter_no_colon_eq _ h3]
  have : (d.drop 13).take 2 ++ d.drop 15 = d.drop 13 := by
    have hdd : (d.drop 13).drop 2 = d.drop 15 := by
      rw [List.drop_drop]
    rw [← hdd, List.take_append_drop]
  rw [this, List.take_append_drop]

theorem encBytes_nil : encBytes [] = [] := rfl

theorem encBytes_cons (x : Nat) (xs : Bytes) :
    encBytes (x :: xs) = List.replicate x 'a' ++ 'b' :: encBytes xs := by
  unfold encBytes
  rw [List.map_cons, List.flatten_cons, List.append_assoc, List.singleton_append]

theorem encBlock_inj : ∀ (x y : Nat) (s t : List Char),
    List.replicate x 'a' ++ 'b' :: s = List.replicate y 'a' ++ 'b' :: t →
    x = y ∧ s = t := by
  intro x
  induction x with
  | zero =>
    intro y s t h
    cases y with
    | zero =>
      simp only [List.replicate_zero, List.nil_append, List.cons.injEq] at h
      exact ⟨rfl, h.2⟩
    | succ y =>
      simp only [List.replicate_zero, List.replicate_succ, List.nil_append,
        List.cons_append, List.cons.injEq] at h
      exact absurd h.1 (by decide)
  | succ x ih =>
    intro y s t h
    cases y with
    | zero =>
      simp only [List.replicate_zero, List.replicate_succ, List.nil_append,
        List.cons_append, List.cons.injEq] at h
      exact absurd h.1 (by decide)
    | succ y =>
      simp only [List.replicate_succ, List.cons_append, List.cons.injEq] at h
      obtain ⟨h1, h2⟩ := ih y s t h.2
      exact ⟨by omega, h2⟩

theorem encBytes_inj_aux : ∀ (l1 l2 : Bytes), encBytes l1 = encBytes l2 → l1 = l2
  | [], [], _ => rfl
  | [], y :: ys, h => by
    rw [encBytes_nil, encBytes_cons] at h
    have := congrArg List.length h
    simp at this
    exact absurd this (by omega)
  | x :: xs, [], h => by
    rw [encBytes_nil, encBytes_cons] at h
    have := congrArg List.length h
    simp at this
  | x :: xs, y :: ys, h => by
    rw [encBytes_cons, encBytes_cons] at h
    obtain ⟨h1, h2⟩ := encBlock_inj x y _ _ h
    rw [h1, encBytes_inj_aux xs ys h2]

theorem encBytes_injective : Function.Injective encBytes :=
  fun a b => encBytes_inj_aux a b

theorem isDigit_ne_colon (c : Char) (h : c.isDigit = true) : ¬ c = ':' := by
  intro hc
  subst hc
  exact absurd h (by decide)

/-- Reinserting the colons into the colon-stripped form of a valid
timestamp restores the timestamp. -/
theorem insertColons_stripColons_valid (ts : Seg) (h : validTimestamp ts = true) :
    insertColons (stripColons ts) = ts := by
  unfold validTimestamp at h
  split at h
  case h_2 => cases h
  case h_1 y1 y2 y3 y4 c1 m1 m2 c2 d1 d2 c3 h1 h2 c4 n1 n2 c5 s1 s2 =>
    simp only [Bool.and_eq_true, decide_eq_true_eq] at h
    obtain ⟨⟨⟨⟨⟨⟨⟨⟨⟨⟨⟨⟨⟨⟨⟨⟨⟨⟨hy1, hy2⟩, hy3⟩, hy4⟩, hm1⟩, hm2⟩, hd1⟩, hd2⟩,
      hh1⟩, hh2⟩, hn1⟩, hn2⟩, hs1⟩, hs2⟩, hc1⟩, hc2⟩, hc3⟩, hc4⟩, hc5⟩ := h
    subst hc1
    subst hc2
    subst hc3
    subst hc4
    subst hc5
    have e1 := isDigit_ne_colon _ hy1
    have e2 := isDigit_ne_colon _ hy2
    have e3 := isDigit_ne_colon _ hy3
    have e4 := isDigit_ne_colon _ hy4
    have e5 := isDigit_ne_colon _ hm1
    have e6 := isDigit_ne_colon _ hm2
    have e7 := isDigit_ne_colon _ hd1
    have e8 := isDigit_ne_colon _ hd2
    have e9 := isDigit_ne_colon _ hh1
    have e10 := isDigit_ne_colon _ hh2
    have e11 := isDigit_ne_colon _ hn1
    have e12 := isDigit_ne_colon _ hn2
    have e13 := isDigit_ne_colon _ hs1
    have e14 := isDigit_ne_colon _ hs2
    simp [stripColons, insertColons, List.filter_cons, e1, e2, e3, e4, e5, e6,
      e7, e8, e9, e10, e11, e12, e13, e14]

/-- Unpack a successful `add_nomaxbackups` call into its validation
facts, the ingest loop result, and the shape of the new repository. -/
theorem add_nomaxbackups_ok (hashFn : Bytes → Seg) (cfg : Config) (repo repo1 : Repo)
    (name ts : Seg) (input : Bytes)
    (h : add_nomaxbackups hashFn cfg repo name ts input = .ok repo1) :
    validName cfg name = true ∧ validTimestamp ts = true ∧
    findInst repo name ts = none ∧
    ∃ entries store2,
      ingestLoop hashFn cfg.maxparts 0 repo.store (chunks cfg.partsize input)
        = .ok (entries, store2) ∧
      repo1 = { names := insertInst repo.names name (stripColons ts)
                  { parts := entries
                    sizeF := some (((chunks cfg.partsize input).map List.length).sum : Int)
                    hashF := some (hashFn (chunks cfg.partsize input).flatten) }
                store := store2 } := by
  unfold add_nomaxbackups at h
  by_cases h1 : validName cfg name = true
  · rw [if_neg (not_not_intro h1)] at h
    by_cases h2 : validTimestamp ts = true
    · rw [if_neg (not_not_intro h2)] at h
      by_cases h3 : (findInst repo name ts).isSome
      · rw [if_pos h3] at h
        cases h
      · rw [if_neg h3] at h
        have h3' : findInst repo name ts = none := Option.not_isSome_iff_eq_none.mp h3
        cases h4 : ingestLoop hashFn cfg.maxparts 0 repo.store (chunks cfg.partsize input) with
        | error err => rw [h4] at h; cases h
        | ok pr =>
          obtain ⟨entries, store2⟩ := pr
          rw [h4] at h
          dsimp only at h
          injection h with h
          exact ⟨h1, h2, h3', entries, store2, rfl, h.symm⟩
    · rw [if_pos h2] at h
      cases h
  · rw [if_pos h1] at h
    cases h

/-- A blob that already exists with the right size is skipped: the
store is untouched (lines 229-230). -/
theorem put_blob_skip (store : Store) (d : Seg) (data c : Bytes)
    (h : lookupA store (hash_filename d) = some c) (hl : c.length = data.length) :
    put_blob store d data = store := by
  unfold put_blob
  rw [h]
  dsimp only
  rw [if_pos hl]

theorem ingestLoop_pres_sized (hashFn : Bytes → Seg) (hinj : Function.Injective hashFn)
    (mp : Nat) (p0 : Bytes) :
    ∀ (parts : List Bytes) (i : Nat) (store : Store)
      (entries : List ((Seg × Seg) × Target)) (store2 : Store),
      ingestLoop hashFn mp i store parts = .ok (entries, store2) →
      (∃ c, lookupA store (hash_filename (hashFn p0)) = some c ∧ c.length = p0.length) →
      ∃ c, lookupA store2 (hash_filename (hashFn p0)) = some c ∧ c.length = p0.length := by
  intro parts
  induction parts with
  | nil =>
    intro i store entries store2 h hex
    rw [ingestLoop] at h
    injection h with h
    obtain ⟨-, h2⟩ := Prod.mk.injEq _ _ _ _ ▸ h
    rw [← h2]
    exact hex
  | cons data rest ih =>
    intro i store entries store2 h hex
    rw [ingestLoop] at h
    split_ifs at h with hmp
    cases h2 : ingestLoop hashFn mp (i + 1) (put_blob store (hashFn data) data) rest with
    | error err => rw [h2] at h; cases h
    | ok pr =>
      obtain ⟨entries1, store1⟩ := pr
      rw [h2] at h
      dsimp only at h
      injection h with h
      obtain ⟨-, h4⟩ := Prod.mk.injEq _ _ _ _ ▸ h
      subst h4
      apply ih (i + 1) _ entries1 store1 h2
      by_cases hk : hash_filename (hashFn p0) = hash_filename (hashFn data)
      · have hpd : p0 = data := hinj (hash_filename_inj _ _ hk)
        subst hpd
        obtain ⟨c, hc, hcl, -⟩ := put_blob_lookup_self store (hashFn p0) p0
        exact ⟨c, hc, hcl⟩
      · rw [put_blob_lookup_other store _ data _ hk]
        exact hex

theorem ingestLoop_sized (hashFn : Bytes → Seg) (hinj : Function.Injective hashFn)
    (mp : Nat) :
    ∀ (parts : List Bytes) (i : Nat) (store : Store)
      (entries : List ((Seg × Seg) × Target)) (store2 : Store),
      ingestLoop hashFn mp i store parts = .ok (entries, store2) →
      ∀ p ∈ parts,
        ∃ c, lookupA store2 (hash_filename (hashFn p)) = some c ∧ c.length = p.length := by
  intro parts
  induction parts with
  | nil => intro i store entries store2 _ p hp; cases hp
  | cons data rest ih =>
    intro i store entries store2 h p hp
    rw [ingestLoop] at h
    split_ifs at h with hmp
    cases h2 : ingestLoop hashFn mp (i + 1) (put_blob store (hashFn data) data) rest with
    | error err => rw [h2] at h; cases h
    | ok pr =>
      obtain ⟨entries1, store1⟩ := pr
      rw [h2] at h
      dsimp only at h
      injection h with h
      obtain ⟨-, h4⟩ := Prod.mk.injEq _ _ _ _ ▸ h
      subst h4
      rcases List.mem_cons.mp hp with h5 | h5
      · subst h5
        apply ingestLoop_pres_sized hashFn hinj mp p rest (i + 1) _ entries1 store1 h2
        obtain ⟨c, hc, hcl, -⟩ := put_blob_lookup_self store (hashFn p) p
        exact ⟨c, hc, hcl⟩
      · exact ih (i + 1) _ entries1 store1 h2 p h5

theorem ingestLoop_skip (hashFn : Bytes → Seg) (mp : Nat) :
    ∀ (parts : List Bytes) (i : Nat) (store : Store)
      (entries : List ((Seg × Seg) × Target)) (store2 : Store),
      (∀ p ∈ parts,
        ∃ c, lookupA store (hash_filename (hashFn p)) = some c ∧ c.length = p.length) →
      ingestLoop hashFn mp i store parts = .ok (entries, store2) →
      store2 = store := by
  intro parts
  induction parts with
  | nil =>
    intro i store entries store2 _ h
    rw [ingestLoop] at h
    injection h with h
    obtain ⟨-, h2⟩ := Prod.mk.injEq _ _ _ _ ▸ h
    exact h2.symm
  | cons data rest ih =>
    intro i store entries store2 hsz h
    rw [ingestLoop] at h
    split_ifs at h with hmp
    obtain ⟨c, hc, hcl⟩ := hsz data (List.mem_cons_self _ _)
    rw [put_blob_skip store (hashFn data) data c hc hcl] at h
    cases h2 : ingestLoop hashFn mp (i + 1) store rest with
    | error err => rw [h2] at h; cases h
    | ok pr =>
      obtain ⟨entries1, store1⟩ := pr
      rw [h2] at h
      dsimp only at h
      injection h with h
      obtain ⟨-, h4⟩ := Prod.mk.injEq _ _ _ _ ▸ h
      subst h4
      exact ih (i + 1) store entries1 store1
        (fun p hp => hsz p (List.mem_cons_of_mem _ hp)) h2

/-- C1: ingesting a stream under a fresh valid name and then recovering
that name's newest completed instance writes back exactly the
ingested bytes, and the stored hash equals the digest of the whole
stream.  Hypotheses: a positive part size (a valid `partsize`), an
injective digest function (the assumed collision resistance), a
content-addressed starting store, a name with no prior instances,
and a successful ingest. -/
theorem C1_round_trip (hashFn : Bytes → Seg) (cfg : Config) (repo0 repo1 : Repo)
    (name ts : Seg) (input : Bytes)
    (hps : 0 < cfg.partsize)
    (hinj : Function.Injective hashFn)
    (hcai : contentAddressed hashFn repo0.store)
    (hfresh : lookupA repo0.names name = none)
    (hok : add_nomaxbackups hashFn cfg repo0 name ts input = .ok repo1) :
    recover_latest hashFn cfg repo1 name = .ok input ∧
    ∃ inst : Instance, findInst repo1 name ts = some inst ∧
      inst.hashF = some (hashFn input) := by
  obtain ⟨hvn, hvt, hfi, entries, store2, hloop, hrepo1⟩ :=
    add_nomaxbackups_ok hashFn cfg repo0 repo1 name ts input hok
  obtain ⟨hcai2, hpres, hlk, hent, hidx⟩ :=
    ingestLoop_cai hashFn hinj cfg.maxparts (chunks cfg.partsize input) 0
      repo0.store entries store2 hcai hloop
  subst hent
  set parts := chunks cfg.partsize input with hpartsdef
  set instN : Instance :=
    { parts := ingestEntries hashFn cfg.maxparts 0 parts
      sizeF := some ((parts.map List.length).sum : Int)
      hashF := some (hashFn parts.flatten) } with hinstN
  have hnames1 : repo1.names = insertInst repo0.names name (stripColons ts) instN := by
    rw [hrepo1]
  have hstore1 : repo1.store = store2 := by rw [hrepo1]
  have hLnames := lookupA_insertInst_self repo0.names name (stripColons ts) instN hfresh
  have hfind1 : findInst repo1 name ts = some instN := by
    unfold findInst
    rw [hnames1, hLnames]
    dsimp only
    rw [lookupA, if_pos rfl]
  have hts1 : timestamps repo1 name = [ts] := by
    unfold timestamps
    rw [hnames1, hLnames]
    dsimp only
    rw [List.map_cons, List.map_nil]
    dsimp only
    rw [insertColons_stripColons_valid ts hvt]
    rfl
  have hpf : partfiles instN = ingestEntries hashFn cfg.maxparts 0 parts := by
    rw [hinstN]
    exact partfiles_ingestEntries hashFn cfg.maxparts parts 0 _ _ hidx
  have hreads : readParts store2 (ingestEntries hashFn cfg.maxparts 0 parts) = .ok parts :=
    readParts_ingestEntries hashFn cfg.maxparts store2 parts 0 hlk
  have hsum := sumPartSizes_of_readParts store2 _ parts hreads
  have hsizes : sizes repo1 name ts
      = .ok ((parts.map List.length).sum, some ((parts.map List.length).sum : Int)) := by
    unfold sizes
    rw [hfind1]
    dsimp only
    rw [hstore1, hpf, hsum]
    dsimp only
    rw [if_neg (by omega), if_neg (by omega)]
  have hflat : parts.flatten = input := chunks_flatten cfg.partsize hps input
  have hrns : recover_nosizecheck hashFn cfg repo1 name ts = .ok input := by
    unfold recover_nosizecheck
    rw [if_neg (not_not_intro hvn), if_neg (not_not_intro hvt), hfind1]
    dsimp only
    rw [hstore1, hpf, hreads]
    dsimp only
    rw [if_pos rfl, hflat]
  constructor
  · unfold recover_latest
    rw [if_neg (not_not_intro hvn), hts1, recoverLatestLoop, hsizes]
    dsimp only
    rw [if_pos rfl]
    exact hrns
  · refine ⟨instN, hfind1, ?_⟩
    dsimp only
    rw [hflat]

/-- Configuration used by the concrete witnesses: part size 4, at most
10 parts, the default snapshot suffix. -/
def cfgW : Config :=
  { partsize := 4
    maxparts := 10
    snapshotsuffix := ['_', 's', 'h', 'a', 's', 'p', 'l', 'i', 't'] }

/-- Witness input stream (five bytes, so two parts at `partsize = 4`). -/
def inputW : Bytes := [1, 2, 3, 4, 5]

/-- The empty repository. -/
def repoW0 : Repo := { names := [], store := [] }

/-- The repository after ingesting `inputW` under name `x`. -/
def repoW1 : Repo :=
  match add_nomaxbackups encBytes cfgW repoW0 ['x'] tsW inputW with
  | .ok r => r
  | .error _ => repoW0

/-- Witness for C1: a concrete ingest followed by a concrete recovery. -/
theorem C1_round_trip_witness :
    0 < cfgW.partsize ∧
    lookupA repoW0.names ['x'] = none ∧
    add_nomaxbackups encBytes cfgW repoW0 ['x'] tsW inputW = .ok repoW1 ∧
    (recover_latest encBytes cfgW repoW1 ['x'] = .ok inputW ∧
     ∃ inst : Instance, findInst repoW1 ['x'] tsW = some inst ∧
       inst.hashF = some (encBytes inputW)) := by
  refine ⟨by decide, rfl, rfl, ?_⟩
  exact C1_round_trip encBytes cfgW repoW0 repoW1 ['x'] tsW inputW (by decide)
    encBytes_injective (fun e he => absurd he (List.not_mem_nil e)) rfl rfl

/-- C6: a part whose blob already exists with the part's byte length is
skipped (first conjunct, `put_blob` write-or-skip), and therefore a
second ingest of the same bytes under a different name leaves every
blob of the first ingest untouched (second conjunct). -/
theorem C6_blob_skip_idempotent :
    (∀ (store : Store) (d : Seg) (data c : Bytes),
        lookupA store (hash_filename d) = some c → c.length = data.length →
        put_blob store d data = store) ∧
    (∀ (hashFn : Bytes → Seg) (cfg : Config) (repo0 repo1 repo2 : Repo)
        (name1 name2 ts1 ts2 : Seg) (input : Bytes),
        Function.Injective hashFn → name1 ≠ name2 →
        add_nomaxbackups hashFn cfg repo0 name1 ts1 input = .ok repo1 →
        add_nomaxbackups hashFn cfg repo1 name2 ts2 input = .ok repo2 →
        repo2.store = repo1.store) := by
  constructor
  · exact put_blob_skip
  · intro hashFn cfg repo0 repo1 repo2 name1 name2 ts1 ts2 input hinj hnames h1 h2
    obtain ⟨-, -, -, e1, s1, hl1, hr1⟩ :=
      add_nomaxbackups_ok hashFn cfg repo0 repo1 name1 ts1 input h1
    obtain ⟨-, -, -, e2, s2, hl2, hr2⟩ :=
      add_nomaxbackups_ok hashFn cfg repo1 repo2 name2 ts2 input h2
    have hsized := ingestLoop_sized hashFn hinj cfg.maxparts
      (chunks cfg.partsize input) 0 repo0.store e1 s1 hl1
    have hstore1 : repo1.store = s1 := by rw [hr1]
    rw [hstore1] at hl2
    have hskip := ingestLoop_skip hashFn cfg.maxparts
      (chunks cfg.partsize input) 0 s1 e2 s2 hsized hl2
    have hstore2 : repo2.store = s2 := by rw [hr2]
    rw [hstore2, hstore1, hskip]

/-- The repository after a second ingest of `inputW` under name `y`. -/
def repoW2 : Repo :=
  match add_nomaxbackups encBytes cfgW repoW1 ['y'] tsW inputW with
  | .ok r => r
  | .error _ => repoW0

/-- Witness for C6 at concrete inputs: a concrete skipped blob write and
a concrete double ingest under two names. -/
theorem C6_blob_skip_idempotent_witness :
    (lookupA ([((['a', 'b'], []), [5, 6])] : Store) (hash_filename ['a', 'b'])
        = some [5, 6] ∧
     put_blob [((['a', 'b'], []), [5, 6])] ['a', 'b'] [7, 8]
        = [((['a', 'b'], []), [5, 6])]) ∧
    (add_nomaxbackups encBytes cfgW repoW0 ['x'] tsW inputW = .ok repoW1 ∧
     add_nomaxbackups encBytes cfgW repoW1 ['y'] tsW inputW = .ok repoW2 ∧
     repoW2.store = repoW1.store) := by
  refine ⟨⟨rfl, ?_⟩, rfl, rfl, ?_⟩
  · exact C6_blob_skip_idempotent.1 _ (['a', 'b']) ([7, 8]) ([5, 6]) rfl rfl
  · exact C6_blob_skip_idempotent.2 encBytes cfgW repoW0 repoW1 repoW2
      ['x'] ['y'] tsW tsW inputW encBytes_injective (by decide) rfl rfl

/-- The drop-list loop of `remove_obsolete` (lines 150-159): walk the
timestamps newest first; while fewer than `maxbackups` completed
instances have been seen, compute `sizes` and count completions
(`size == expected_size`); afterwards every further timestamp is
appended to the drop list.  `k` counts the completions still
needed. -/
def dropLoop (repo : Repo) (name : Seg) : Nat → List Seg → Except Err (List Seg)
  | _, [] => .ok []
  | k, t :: rest =>
    if 0 < k then
      match sizes repo name t with
      | .error err => .error err
      | .ok (a, expected) =>
        dropLoop repo name (if expected = some (a : Int) then k - 1 else k) rest
    else
      match dropLoop repo name 0 rest with
      | .error err => .error err
      | .ok l => .ok (t :: l)

/-- Recover the referenced digest of each listed part symlink
(`os.readlink` plus `hash_of_filename`, lines 165-167 and 180). -/
def digestsOf : List ((Seg × Seg) × Target) → Except Err (List Seg)
  | [] => .ok []
  | e :: es =>
    match hash_of_filename e.2 with
    | .error err => .error err
    | .ok d =>
      match digestsOf es with
      | .error err => .error err
      | .ok ds => .ok (d :: ds)

/-- Remove the directory entry stored under key `k` (`os.rmdir` of an
instance directory). -/
def eraseKey {ν : Type} : List (Seg × ν) → Seg → List (Seg × ν)
  | [], _ => []
  | e :: es, k => if e.1 = k then es else e :: eraseKey es k

/-- Apply a function to the listing of one name directory. -/
def mapName {ν : Type} : List (Seg × ν) → Seg → (ν → ν) → List (Seg × ν)
  | [], _, _ => []
  | e :: es, k, f => if e.1 = k then (e.1, f e.2) :: es else e :: mapName es k f

/-- The removal phase of `remove_obsolete` (lines 160-175): for each
dropped timestamp, read every part symlink, record its referenced
digest and unlink it, then remove the part directories, the `size`
and `hash` files and the instance directory. -/
def removeInstances (name : Seg) :
    Repo → List Seg → Except Err (Repo × List Seg)
  | repo, [] => .ok (repo, [])
  | repo, t :: rest =>
    match findInst repo name t with
    | none => .error .osError
    | some inst =>
      match digestsOf (partfiles inst) with
      | .error err => .error err
      | .ok ds =>
        match removeInstances name
            { repo with
              names := mapName repo.names name (fun insts => eraseKey insts (stripColons t)) }
            rest with
        | .error err => .error err
        | .ok (repo2, ds2) => .ok (repo2, ds ++ ds2)

/-- One name's contribution to the reference sweep (lines 178-181):
every part symlink of every instance of the name yields its
referenced digest. -/
def sweepName (repo : Repo) (name : Seg) : List Seg → Except Err (List Seg)
  | [] => .ok []
  | t :: rest =>
    match findInst repo name t with
    | none => .error .osError
    | some inst =>
      match digestsOf (partfiles inst) with
      | .error err => .error err
      | .ok ds =>
        match sweepName repo name rest with
        | .error err => .error err
        | .ok ds2 => .ok (ds ++ ds2)

/-- The reference sweep of `remove_obsolete` (lines 176-181):
`self.names()` validates and yields every name directory, and every
remaining part symlink discards its digest from the freed set. -/
def sweepRefs (cfg : Config) (repo : Repo) :
    List (Seg × List (Seg × Instance)) → Except Err (List Seg)
  | [] => .ok []
  | e :: es =>
    if ¬ validName cfg e.1 then .error .typeError
    else
      match sweepName repo e.1 (timestamps repo e.1) with
      | .error err => .error err
      | .ok ds =>
        match sweepRefs cfg repo es with
        | .error err => .error err
        | .ok ds2 => .ok (ds ++ ds2)

/-- Retention and garbage collection (`remove_obsolete`, lines
146-198): validate the inputs, build the drop list, remove the
dropped instances while recording their referenced digests, discard
every digest still referenced by any remaining instance of any name,
and unlink the remaining unused data files (the removal of empty
blob shard directories, lines 191-198, has no observable effect in
this model). -/
def remove_obsolete (cfg : Config) (repo : Repo) (name : Seg) (maxbackups : Nat) :
    Except Err Repo :=
  if ¬ validName cfg name then .error .typeError
  else if ¬ 0 < maxbackups then .error .typeError
  else
    match dropLoop repo name maxbackups (timestamps repo name) with
    | .error err => .error err
    | .ok dropL =>
      match removeInstances name repo dropL with
      | .error err => .error err
      | .ok (repo1, freed) =>
        match sweepRefs cfg repo1 repo1.names with
        | .error err => .error err
        | .ok refs =>
          .ok { repo1 with
                store := repo1.store.filter
                  (fun e => decide (e.1 ∉
                    (freed.filter (fun d => decide (d ∉ refs))).map hash_filename)) }

/-- Well-formedness of the on-disk listing: distinct name directories,
and inside each name distinct, colon-free timestamp directory names
(a directory listing never repeats an entry, and timestamp
directories are written with the colons stripped). -/
def wellFormedNames (names : List (Seg × List (Seg × Instance))) : Prop :=
  (names.map (fun e => e.1)).Nodup ∧
  ∀ e ∈ names, ((e.2.map (fun i => i.1)).Nodup ∧
    ∀ i ∈ e.2, ∀ c ∈ i.1, ¬ c = ':')

instance wellFormedNames.instDecidable (names : List (Seg × List (Seg × Instance))) :
    Decidable (wellFormedNames names) := by
  unfold wellFormedNames
  infer_instance

/-- Check that a symlink target has the canonical shape written by the
ingest, and recover its digest. -/
def targetDigest (t : Target) : Option Seg :=
  match t with
  | [u1, u2, u3, dd, a, b] =>
    if u1 = dotdot ∧ u2 = dotdot ∧ u3 = dotdot ∧ dd = dataSeg ∧
        a = (a ++ b).take 3 ∧ b = (a ++ b).drop 3 then some (a ++ b)
    else none
  | _ => none

/-- Every part symlink of every instance has a canonical target. -/
def allCanonical (names : List (Seg × List (Seg × Instance))) : Prop :=
  ∀ e ∈ names, ∀ i ∈ e.2, ∀ pe ∈ i.2.parts, (targetDigest pe.2).isSome = true

/-- Every part symlink of every instance resolves to an existing blob
(invariant 1 of the data model). -/
def allResolve (store : Store) (names : List (Seg × List (Seg × Instance))) : Prop :=
  ∀ e ∈ names, ∀ i ∈ e.2, ∀ pe ∈ i.2.parts, (resolveTarget store pe.2).isSome = true

instance allCanonical.instDecidable (names : List (Seg × List (Seg × Instance))) :
    Decidable (allCanonical names) := by
  unfold allCanonical
  infer_instance

instance allResolve.instDecidable (store : Store)
    (names : List (Seg × List (Seg × Instance))) :
    Decidable (allResolve store names) := by
  unfold allResolve
  infer_instance

/-- C10: a valid name whose directory does not exist has no timestamps,
and `remove_obsolete` on it succeeds as a no-op for every positive
`maxbackups` (given that the reference sweep over the other names
succeeds, which the claim presupposes by speaking of a well-formed
repository). -/
theorem C10_missing_name_noop (cfg : Config) (repo : Repo) (name : Seg) (k : Nat)
    (hname : lookupA repo.names name = none)
    (hvn : validName cfg name = true) (hk : 0 < k)
    (refs : List Seg)
    (hsweep : sweepRefs cfg repo repo.names = .ok refs) :
    timestamps repo name = [] ∧
    remove_obsolete cfg repo name k = .ok repo := by
  obtain ⟨names0, store0⟩ := repo
  have hts : timestamps ⟨names0, store0⟩ name = [] := by
    unfold timestamps
    dsimp only
    rw [hname]
  refine ⟨hts, ?_⟩
  unfold remove_obsolete
  rw [if_neg (not_not_intro hvn), if_neg (not_not_intro hk), hts]
  rw [dropLoop]
  dsimp only
  rw [removeInstances]
  dsimp only
  rw [hsweep]
  dsimp only
  simp

/-- Witness for C10: name `z` is absent from the sample repository. -/
theorem C10_missing_name_noop_witness :
    lookupA repoW7.names ['z'] = none ∧
    validName cfgW ['z'] = true ∧ 0 < 1 ∧
    sweepRefs cfgW repoW7 repoW7.names = .ok [digestW] ∧
    (timestamps repoW7 ['z'] = [] ∧
     remove_obsolete cfgW repoW7 ['z'] 1 = .ok repoW7) :=
  ⟨rfl, by decide, by decide, rfl,
    C10_missing_name_noop cfgW repoW7 ['z'] 1 rfl (by decide) (by decide) [digestW] rfl⟩

/-- The number of leading timestamps the drop-list loop keeps: walking
newest first, count completions until `k` of them have been seen;
everything after that point is dropped. -/
def keepCount (c : Seg → Bool) : Nat → List Seg → Nat
  | _, [] => 0
  | k, t :: rest =>
    if 0 < k then 1 + keepCount c (if c t then k - 1 else k) rest else 0

theorem keepCount_zero (c : Seg → Bool) (l : List Seg) : keepCount c 0 l = 0 := by
  cases l <;> simp [keepCount]

theorem isCompleted_of_sizes (repo : Repo) (name t : Seg) (a : Nat) (e : Option Int)
    (hs : sizes repo name t = .ok (a, e)) :
    isCompleted repo name t = decide (e = some ((a : Int))) := by
  unfold isCompleted
  rw [hs]
  cases e with
  | none => simp
  | some e0 =>
    dsimp only
    by_cases he : (a : Int) = e0
    · rw [he]
      simp
    · rw [decide_eq_false he, decide_eq_false]
      intro hx
      injection hx with hx
      exact he hx.symm

theorem dropLoop_ok (repo : Repo) (name : Seg) :
    ∀ (l : List Seg) (k : Nat) (d : List Seg),
      dropLoop repo name k l = .ok d →
      d = l.drop (keepCount (isCompleted repo name) k l) := by
  intro l
  induction l with
  | nil =>
    intro k d h
    rw [dropLoop] at h
    injection h with h
    rw [← h, List.drop_nil]
  | cons t rest ih =>
    intro k d h
    rw [dropLoop] at h
    split_ifs at h with hk
    · cases hs : sizes repo name t with
      | error err => rw [hs] at h; cases h
      | ok pr =>
        obtain ⟨a, e⟩ := pr
        rw [hs] at h
        dsimp only at h
        have hd := ih _ d h
        have hcc : (if isCompleted repo name t then k - 1 else k)
            = (if e = some ((a : Int)) then k - 1 else k) := by
          rw [isCompleted_of_sizes repo name t a e hs]
          by_cases hc : e = some ((a : Int))
          · rw [if_pos hc, if_pos (by simp [hc])]
          · rw [if_neg hc, if_neg (by simpa using hc)]
        rw [hd, keepCount, if_pos hk, hcc]
        have h1 : 1 + keepCount (isCompleted repo name)
              (if e = some ((a : Int)) then k - 1 else k) rest
            = keepCount (isCompleted repo name)
              (if e = some ((a : Int)) then k - 1 else k) rest + 1 := by omega
        rw [h1, List.drop_succ_cons]
    · cases h2 : dropLoop repo name 0 rest with
      | error err => rw [h2] at h; cases h
      | ok l2 =>
        rw [h2] at h
        dsimp only at h
        injection h with h
        have hl2 := ih 0 l2 h2
        rw [keepCount]
        have hk0 : k = 0 := by omega
        subst hk0
        rw [if_neg (by omega), List.drop_zero, ← h, hl2, keepCount_zero,
          List.drop_zero]

theorem countP_take_keepCount (c : Seg → Bool) :
    ∀ (l : List Seg) (k : Nat),
      (l.take (keepCount c k l)).countP c = min k (l.countP c) := by
  intro l
  induction l with
  | nil => intro k; simp [keepCount]
  | cons t rest ih =>
    intro k
    by_cases hk : 0 < k
    · rw [keepCount, if_pos hk]
      have h1 : 1 + keepCount c (if c t then k - 1 else k) rest
          = keepCount c (if c t then k - 1 else k) rest + 1 := by omega
      rw [h1, List.take_succ_cons, List.countP_cons, List.countP_cons]
      by_cases hct : c t
      · simp only [if_pos hct]
        rw [ih (k - 1)]
        omega
      · simp only [if_neg hct]
        rw [ih k]
        omega
    · have hk0 : k = 0 := by omega
      subst hk0
      rw [keepCount, if_neg (by omega), List.take_zero]
      simp

theorem countP_take_of_drop_ne_nil (c : Seg → Bool) :
    ∀ (l : List Seg) (k : Nat), l.drop (keepCount c k l) ≠ [] →
      (l.take (keepCount c k l)).countP c = k := by
  intro l
  induction l with
  | nil => intro k h; simp [keepCount] at h
  | cons t rest ih =>
    intro k h
    by_cases hk : 0 < k
    · rw [keepCount, if_pos hk] at h ⊢
      have h1 : 1 + keepCount c (if c t then k - 1 else k) rest
          = keepCount c (if c t then k - 1 else k) rest + 1 := by omega
      rw [h1] at h ⊢
      rw [List.drop_succ_cons] at h
      rw [List.take_succ_cons, List.countP_cons]
      by_cases hct : c t
      · simp only [if_pos hct] at h ⊢
        rw [ih (k - 1) h]
        omega
      · simp only [if_neg hct] at h ⊢
        rw [ih k h]
        omega
    · have hk0 : k = 0 := by omega
      subst hk0
      rw [keepCount, if_neg (by omega), List.take_zero]
      simp

theorem countP_pos_ne_nil (c : Seg → Bool) (l : List Seg) (h : 0 < l.countP c) :
    l ≠ [] := by
  intro hl
  subst hl
  simp at h

theorem getLast_take_completed (c : Seg → Bool) :
    ∀ (l : List Seg) (k : Nat), 0 < k → l.drop (keepCount c k l) ≠ [] →
      ∃ x, (l.take (keepCount c k l)).getLast? = some x ∧ c x = true := by
  intro l
  induction l with
  | nil => intro k _ h; simp [keepCount] at h
  | cons t rest ih =>
    intro k hk h
    rw [keepCount, if_pos hk] at h ⊢
    have h1 : 1 + keepCount c (if c t then k - 1 else k) rest
        = keepCount c (if c t then k - 1 else k) rest + 1 := by omega
    rw [h1] at h ⊢
    rw [List.drop_succ_cons] at h
    rw [List.take_succ_cons]
    by_cases hct : c t
    · simp only [if_pos hct] at h ⊢
      by_cases hk1 : k = 1
      · subst hk1
        have hkc : keepCount c (1 - 1) rest = 0 := keepCount_zero c rest
        rw [hkc] at h ⊢
        rw [List.take_zero]
        exact ⟨t, rfl, hct⟩
      · have hkpos : 0 < k - 1 := by omega
        obtain ⟨x, hx, hcx⟩ := ih (k - 1) hkpos h
        have hne : rest.take (keepCount c (k - 1) rest) ≠ [] := by
          apply countP_pos_ne_nil c
          rw [countP_take_of_drop_ne_nil c rest (k - 1) h]
          omega
        refine ⟨x, ?_, hcx⟩
        cases hcase : rest.take (keepCount c (k - 1) rest) with
        | nil => exact absurd hcase hne
        | cons y l2 =>
          rw [hcase] at hx
          rw [List.getLast?_cons_cons, ← hx]
    · simp only [if_neg hct] at h ⊢
      obtain ⟨x, hx, hcx⟩ := ih k hk h
      have hne : rest.take (keepCount c k rest) ≠ [] := by
        apply countP_pos_ne_nil c
        rw [countP_take_of_drop_ne_nil c rest k h]
        omega
      refine ⟨x, ?_, hcx⟩
      cases hcase : rest.take (keepCount c k rest) with
      | nil => exact absurd hcase hne
      | cons y l2 =>
        rw [hcase] at hx
        rw [List.getLast?_cons_cons, ← hx]

theorem mapName_keys {ν : Type} :
    ∀ (l : List (Seg × ν)) (k : Seg) (f : ν → ν),
      (mapName l k f).map (fun e => e.1) = l.map (fun e => e.1) := by
  intro l
  induction l with
  | nil => intro k f; rfl
  | cons e es ih =>
    intro k f
    rw [mapName]
    split_ifs with he
    · simp only [List.map_cons]
    · simp only [List.map_cons]
      rw [ih]

theorem lookupA_mapName_self {ν : Type} :
    ∀ (l : List (Seg × ν)) (k : Seg) (f : ν → ν),
      lookupA (mapName l k f) k = (lookupA l k).map f := by
  intro l
  induction l with
  | nil => intro k f; rfl
  | cons e es ih =>
    intro k f
    rw [mapName]
    split_ifs with he
    · rw [lookupA, if_pos he, lookupA, if_pos he]
      rfl
    · rw [lookupA, if_neg he, lookupA, if_neg he]
      exact ih k f

theorem lookupA_mapName_other {ν : Type} :
    ∀ (l : List (Seg × ν)) (k k2 : Seg) (f : ν → ν), k2 ≠ k →
      lookupA (mapName l k f) k2 = lookupA l k2 := by
  intro l
  induction l with
  | nil => intro k k2 f _; rfl
  | cons e es ih =>
    intro k k2 f hne
    rw [mapName]
    split_ifs with he
    · have h2 : ¬ e.1 = k2 := fun hx => hne ((hx.symm.trans he).symm ▸ rfl)
      rw [lookupA, lookupA]
      dsimp only
      rw [if_neg (fun hx : e.1 = k2 => h2 hx), if_neg h2]
    · rw [lookupA, lookupA]
      by_cases he2 : e.1 = k2
      · rw [if_pos he2, if_pos he2]
      · rw [if_neg he2, if_neg he2]
        exact ih k k2 f hne

theorem mapName_mem {ν : Type} :
    ∀ (l : List (Seg × ν)) (k : Seg) (f : ν → ν) (e2 : Seg × ν),
      e2 ∈ mapName l k f →
      e2 ∈ l ∨ ∃ e ∈ l, e.1 = k ∧ e2 = (e.1, f e.2) := by
  intro l
  induction l with
  | nil => intro k f e2 h; cases h
  | cons e es ih =>
    intro k f e2 h
    rw [mapName] at h
    split_ifs at h with he
    · rcases List.mem_cons.mp h with h1 | h1
      · exact Or.inr ⟨e, List.mem_cons_self _ _, he, h1⟩
      · exact Or.inl (List.mem_cons_of_mem _ h1)
    · rcases List.mem_cons.mp h with h1 | h1
      · exact Or.inl (h1 ▸ List.mem_cons_self _ _)
      · rcases ih k f e2 h1 with h2 | ⟨e0, he0, hk0, heq⟩
        · exact Or.inl (List.mem_cons_of_mem _ h2)
        · exact Or.inr ⟨e0, List.mem_cons_of_mem _ he0, hk0, heq⟩

theorem eraseKey_sublist {ν : Type} :
    ∀ (l : List (Seg × ν)) (k : Seg), (eraseKey l k).Sublist l := by
  intro l
  induction l with
  | nil => intro k; exact List.Sublist.refl _
  | cons e es ih =>
    intro k
    rw [eraseKey]
    split_ifs with he
    · exact List.sublist_cons_self _ _
    · exact List.Sublist.cons₂ _ (ih k)

theorem eraseKey_eq_filter {ν : Type} :
    ∀ (l : List (Seg × ν)) (k : Seg), (l.map (fun e => e.1)).Nodup →
      eraseKey l k = l.filter (fun e => decide (¬ e.1 = k)) := by
  intro l
  induction l with
  | nil => intro k _; rfl
  | cons e es ih =>
    intro k hnd
    rw [List.map_cons, List.nodup_cons] at hnd
    rw [eraseKey, List.filter_cons]
    by_cases he : e.1 = k
    · rw [if_pos he, if_neg (by simp [he])]
      symm
      apply List.filter_eq_self.mpr
      intro a ha
      simp only [decide_eq_true_eq]
      intro hak
      apply hnd.1
      rw [he, ← hak]
      exact List.mem_map.mpr ⟨a, ha, rfl⟩
    · rw [if_neg he, if_pos (by simpa using he), ih k hnd.2]

theorem foldErase_eq_filter :
    ∀ (ts : List Seg) (l : List (Seg × Instance)),
      (l.map (fun e => e.1)).Nodup →
      ts.foldl (fun insts t => eraseKey insts (stripColons t)) l
        = l.filter (fun e => decide (e.1 ∉ ts.map stripColons)) := by
  intro ts
  induction ts with
  | nil =>
    intro l _
    rw [List.foldl_nil]
    symm
    apply List.filter_eq_self.mpr
    intro a _
    simp
  | cons t ts ih =>
    intro l hnd
    rw [List.foldl_cons, eraseKey_eq_filter l (stripColons t) hnd]
    have hnd2 : ((l.filter (fun e => decide (¬ e.1 = stripColons t))).map
        (fun e => e.1)).Nodup :=
      List.Nodup.sublist (List.Sublist.map _ (List.filter_sublist l)) hnd
    rw [ih _ hnd2, List.filter_filter]
    apply List.filter_congr
    intro e _
    by_cases h1 : e.1 = stripColons t
    · simp [h1]
    · by_cases h2 : e.1 ∈ ts.map stripColons
      · simp [h1, h2]
      · simp [h1, h2]

theorem removeInstances_ok (name : Seg) :
    ∀ (dropL : List Seg) (repo repo2 : Repo) (freed : List Seg),
      removeInstances name repo dropL = .ok (repo2, freed) →
      repo2.store = repo.store ∧
      repo2.names = dropL.foldl
        (fun ns t => mapName ns name (fun insts => eraseKey insts (stripColons t)))
        repo.names := by
  intro dropL
  induction dropL with
  | nil =>
    intro repo repo2 freed h
    rw [removeInstances] at h
    injection h with h
    obtain ⟨h1, -⟩ := Prod.mk.injEq _ _ _ _ ▸ h
    rw [← h1]
    exact ⟨rfl, rfl⟩
  | cons t rest ih =>
    intro repo repo2 freed h
    rw [removeInstances] at h
    cases hf : findInst repo name t with
    | none => rw [hf] at h; cases h
    | some inst =>
      rw [hf] at h
      dsimp only at h
      cases hd : digestsOf (partfiles inst) with
      | error err => rw [hd] at h; cases h
      | ok ds =>
        rw [hd] at h
        dsimp only at h
        cases hr : removeInstances name
            { repo with
              names := mapName repo.names name
                (fun insts => eraseKey insts (stripColons t)) } rest with
        | error err => rw [hr] at h; cases h
        | ok pr =>
          obtain ⟨repo3, ds2⟩ := pr
          rw [hr] at h
          dsimp only at h
          injection h with h
          obtain ⟨h1, -⟩ := Prod.mk.injEq _ _ _ _ ▸ h
          obtain ⟨hs, hn⟩ := ih _ repo3 ds2 hr
          rw [← h1]
          exact ⟨hs, by rw [hn, List.foldl_cons]⟩

/-- Unpack a successful `remove_obsolete` call. -/
theorem remove_obsolete_ok (cfg : Config) (repo : Repo) (name : Seg) (k : Nat)
    (repo2 : Repo) (h : remove_obsolete cfg repo name k = .ok repo2) :
    validName cfg name = true ∧ 0 < k ∧
    ∃ dropL repo1 freed refs,
      dropLoop repo name k (timestamps repo name) = .ok dropL ∧
      removeInstances name repo dropL = .ok (repo1, freed) ∧
      sweepRefs cfg repo1 repo1.names = .ok refs ∧
      repo2 = { repo1 with
                store := repo1.store.filter
                  (fun e => decide (e.1 ∉
                    (freed.filter (fun d => decide (d ∉ refs))).map hash_filename)) } := by
  unfold remove_obsolete at h
  by_cases h1 : validName cfg name = true
  · rw [if_neg (not_not_intro h1)] at h
    by_cases h2 : 0 < k
    · rw [if_neg (not_not_intro h2)] at h
      cases h3 : dropLoop repo name k (timestamps repo name) with
      | error err => rw [h3] at h; cases h
      | ok dropL =>
        rw [h3] at h
        dsimp only at h
        cases h4 : removeInstances name repo dropL with
        | error err => rw [h4] at h; cases h
        | ok pr =>
          obtain ⟨repo1, freed⟩ := pr
          rw [h4] at h
          dsimp only at h
          cases h5 : sweepRefs cfg repo1 repo1.names with
          | error err => rw [h5] at h; cases h
          | ok refs =>
            rw [h5] at h
            dsimp only at h
            injection h with h
            exact ⟨h1, h2, dropL, repo1, freed, refs, rfl, h4, h5, h.symm⟩
    · rw [if_pos h2] at h
      cases h
  · rw [if_pos h1] at h
    cases h

theorem nodup_keys_inj {ν : Type} :
    ∀ (l : List (Seg × ν)), (l.map (fun e => e.1)).Nodup →
      ∀ x ∈ l, ∀ y ∈ l, x.1 = y.1 → x = y := by
  intro l
  induction l with
  | nil => intro _ x hx; cases hx
  | cons e es ih =>
    intro hnd x hx y hy hxy
    rw [List.map_cons, List.nodup_cons] at hnd
    rcases List.mem_cons.mp hx with h1 | h1 <;> rcases List.mem_cons.mp hy with h2 | h2
    · rw [h1, h2]
    · exfalso
      apply hnd.1
      rw [h1] at hxy
      rw [hxy]
      exact List.mem_map.mpr ⟨y, h2, rfl⟩
    · exfalso
      apply hnd.1
      rw [h2] at hxy
      rw [← hxy]
      exact List.mem_map.mpr ⟨x, h1, rfl⟩
    · exact ih hnd.2 x h1 y h2 hxy

theorem filter_not_mem_append (l1 l2 : List Seg)
    (hdisj : l1.Disjoint l2) :
    (l1 ++ l2).filter (fun s => decide (s ∉ l2)) = l1 := by
  rw [List.filter_append,
    List.filter_eq_self.mpr (fun a ha => by
      simp only [decide_eq_true_eq]
      exact fun hmem => hdisj ha hmem),
    List.filter_eq_nil_iff.mpr (fun a ha => by simpa using ha), List.append_nil]

theorem lookupA_foldl_mapName {μ : Type} :
    ∀ (ts : List Seg) (l : List (Seg × List (Seg × μ))) (name : Seg),
      lookupA (ts.foldl (fun ns t => mapName ns name
        (fun insts => eraseKey insts (stripColons t))) l) name
      = (lookupA l name).map
          (fun insts => ts.foldl (fun acc t => eraseKey acc (stripColons t)) insts) := by
  intro ts
  induction ts with
  | nil =>
    intro l name
    simp only [List.foldl_nil]
    cases lookupA l name <;> rfl
  | cons t ts ih =>
    intro l name
    simp only [List.foldl_cons]
    rw [ih, lookupA_mapName_self, Option.map_map]
    cases lookupA l name <;> rfl

theorem keys_foldl_mapName {μ : Type} :
    ∀ (ts : List Seg) (l : List (Seg × List (Seg × μ))) (name : Seg),
      ((ts.foldl (fun ns t => mapName ns name
        (fun insts => eraseKey insts (stripColons t))) l).map (fun e => e.1))
      = l.map (fun e => e.1) := by
  intro ts
  induction ts with
  | nil => intro l name; rfl
  | cons t ts ih =>
    intro l name
    rw [List.foldl_cons, ih, mapName_keys]

/-- Re-sorting the listing after erasing exactly the keys of the drop
suffix of the sorted timestamp list yields the kept prefix. -/
theorem sortDesc_filter_drop (insts : List (Seg × Instance)) (K : Nat)
    (hnd : (insts.map (fun i => i.1)).Nodup)
    (hcf : ∀ i ∈ insts, ∀ c ∈ i.1, ¬ c = ':') :
    sortDesc ((insts.filter (fun e => decide (e.1 ∉
        ((sortDesc (insts.map (fun e => insertColons e.1))).drop K).map stripColons))).map
        (fun e => insertColons e.1))
      = (sortDesc (insts.map (fun e => insertColons e.1))).take K := by
  set g : Seg × Instance → Seg := fun e => insertColons e.1 with hg
  set L : List Seg := insts.map g with hL
  set ts : List Seg := sortDesc L with htsdef
  set dropM : List Seg := (ts.drop K).map stripColons with hdropM
  have hstrip : ∀ e ∈ insts, stripColons (g e) = e.1 := fun e he =>
    stripColons_insertColons e.1 (hcf e he)
  have hLmem : ∀ s ∈ L, ∃ e ∈ insts, g e = s := fun s hs => List.mem_map.mp hs
  have htsperm : ts.Perm L := List.perm_insertionSort _ L
  have hinsts_nd : insts.Nodup := List.Nodup.of_map _ hnd
  have hkeyinj := nodup_keys_inj insts hnd
  have hLnd : L.Nodup := by
    apply List.Nodup.map_on ?_ hinsts_nd
    intro x hx y hy hxy
    apply hkeyinj x hx y hy
    rw [← hstrip x hx, ← hstrip y hy, hxy]
  have htsnd : ts.Nodup := htsperm.symm.nodup hLnd
  have hq : insts.filter (fun e => decide (e.1 ∉ dropM))
      = insts.filter ((fun s => decide (stripColons s ∉ dropM)) ∘ g) := by
    apply List.filter_congr
    intro e he
    simp only [Function.comp]
    rw [hstrip e he]
  have hmapfil : (insts.filter (fun e => decide (e.1 ∉ dropM))).map g
      = L.filter (fun s => decide (stripColons s ∉ dropM)) := by
    rw [hq, hL, List.filter_map]
  have hpermfil : (L.filter (fun s => decide (stripColons s ∉ dropM))).Perm
      (ts.filter (fun s => decide (stripColons s ∉ dropM))) :=
    (htsperm.symm).filter _
  have hcongr : ts.filter (fun s => decide (stripColons s ∉ dropM))
      = ts.filter (fun s => decide (s ∉ ts.drop K)) := by
    apply List.filter_congr
    intro s hs
    obtain ⟨e, he, hge⟩ := hLmem s (htsperm.mem_iff.mp hs)
    have hss : stripColons s = e.1 := by
      rw [← hge]
      exact hstrip e he
    by_cases hmem : s ∈ ts.drop K
    · have h1 : stripColons s ∈ dropM := by
        rw [hdropM]
        exact List.mem_map.mpr ⟨s, hmem, rfl⟩
      simp [h1, hmem]
    · have h1 : stripColons s ∉ dropM := by
        rw [hdropM]
        intro hmm
        obtain ⟨t, ht, hteq⟩ := List.mem_map.mp hmm
        have htts : t ∈ ts := (List.drop_sublist K ts).subset ht
        obtain ⟨e2, he2, hge2⟩ := hLmem t (htsperm.mem_iff.mp htts)
        have hts2 : stripColons t = e2.1 := by
          rw [← hge2]
          exact hstrip e2 he2
        have hke : e2.1 = e.1 := by
          rw [← hts2, ← hss, hteq]
        have hts3 : t = s := by
          rw [← hge2, ← hge, hg]
          dsimp only
          rw [hke]
        exact hmem (hts3 ▸ ht)
      simp [h1, hmem]
  have hfiltake : ts.filter (fun s => decide (s ∉ ts.drop K)) = ts.take K := by
    have hnd2 : (ts.take K ++ ts.drop K).Nodup := by
      rw [List.take_append_drop]
      exact htsnd
    rw [List.nodup_append] at hnd2
    have hres := filter_not_mem_append (ts.take K) (ts.drop K) hnd2.2.2
    rw [List.take_append_drop] at hres
    exact hres
  have hX : (sortDesc ((insts.filter (fun e => decide (e.1 ∉ dropM))).map g)).Perm
      (ts.take K) := by
    refine (List.perm_insertionSort _ _).trans ?_
    rw [hmapfil]
    refine hpermfil.trans ?_
    rw [hcongr, hfiltake]
  exact List.eq_of_perm_of_sorted hX
    (List.sorted_insertionSort _ _)
    (List.Pairwise.sublist (List.take_sublist K ts) (List.sorted_insertionSort _ L))

/-- C4: `remove_obsolete(name, k)` keeps exactly the newest-first
prefix of the timestamps reaching up to the `k`-th completion.  The
kept prefix re-appears as the new timestamp listing; it contains
`min k (total completed)` completed instances, so all of the `k`
newest completed ones and every instance encountered before the
`k`-th completion survive; and whenever anything is dropped, the kept
prefix holds exactly `k` completed instances and ends at the `k`-th
completed one, so exactly the instances encountered after the `k`-th
completion are removed. -/
theorem C4_retention (cfg : Config) (repo repo2 : Repo) (name : Seg) (k : Nat)
    (hwf : wellFormedNames repo.names)
    (hok : remove_obsolete cfg repo name k = .ok repo2) :
    timestamps repo2 name
      = (timestamps repo name).take
          (keepCount (isCompleted repo name) k (timestamps repo name)) ∧
    ((timestamps repo name).take
          (keepCount (isCompleted repo name) k (timestamps repo name))).countP
        (isCompleted repo name)
      = min k ((timestamps repo name).countP (isCompleted repo name)) ∧
    ((timestamps repo name).drop
          (keepCount (isCompleted repo name) k (timestamps repo name)) ≠ [] →
      ((timestamps repo name).take
            (keepCount (isCompleted repo name) k (timestamps repo name))).countP
          (isCompleted repo name) = k ∧
      ∃ x, ((timestamps repo name).take
            (keepCount (isCompleted repo name) k (timestamps repo name))).getLast?
          = some x ∧ isCompleted repo name x = true) := by
  obtain ⟨hvn, hk, dropL, repo1, freed, refs, hdl, hri, hsw, hrepo2⟩ :=
    remove_obsolete_ok cfg repo name k repo2 hok
  have hdropL := dropLoop_ok repo name (timestamps repo name) k dropL hdl
  obtain ⟨hst1, hnm1⟩ := removeInstances_ok name dropL repo repo1 freed hri
  refine ⟨?_, countP_take_keepCount _ _ _, fun hne =>
    ⟨countP_take_of_drop_ne_nil _ _ _ hne, getLast_take_completed _ _ _ hk hne⟩⟩
  have hnames2 : repo2.names = repo1.names := by rw [hrepo2]
  have hts2 : timestamps repo2 name = timestamps repo1 name := by
    unfold timestamps
    rw [hnames2]
  rw [hts2]
  cases hli : lookupA repo.names name with
  | none =>
    have htsr : timestamps repo name = [] := by
      unfold timestamps
      rw [hli]
    have hlk1 : lookupA repo1.names name = none := by
      rw [hnm1, lookupA_foldl_mapName, hli]
      rfl
    have hts1 : timestamps repo1 name = [] := by
      unfold timestamps
      rw [hlk1]
    rw [hts1, htsr]
    simp
  | some insts =>
    have htsr : timestamps repo name
        = sortDesc (insts.map (fun e => insertColons e.1)) := by
      unfold timestamps
      rw [hli]
    have hndk : (insts.map (fun i => i.1)).Nodup :=
      (hwf.2 _ (lookupA_mem _ _ _ hli)).1
    have hcf : ∀ i ∈ insts, ∀ c ∈ i.1, ¬ c = ':' :=
      (hwf.2 _ (lookupA_mem _ _ _ hli)).2
    have hlk1 : lookupA repo1.names name
        = some (dropL.foldl (fun acc t => eraseKey acc (stripColons t)) insts) := by
      rw [hnm1, lookupA_foldl_mapName, hli]
      rfl
    have hfold : dropL.foldl (fun acc t => eraseKey acc (stripColons t)) insts
        = insts.filter (fun e => decide (e.1 ∉ dropL.map stripColons)) :=
      foldErase_eq_filter dropL insts hndk
    have hts1 : timestamps repo1 name
        = sortDesc ((insts.filter
            (fun e => decide (e.1 ∉ dropL.map stripColons))).map
            (fun e => insertColons e.1)) := by
      unfold timestamps
      rw [hlk1, hfold]
    rw [hts1, hdropL, htsr]
    exact sortDesc_filter_drop insts _ hndk hcf

/-- Three sample timestamps, newest first. -/
def tsA : Seg :=
  ['2', '0', '1', '3', '-', '0', '1', '-', '0', '3', 'T', '0', '1', ':', '0', '2', ':', '0', '3']

def tsB : Seg :=
  ['2', '0', '1', '3', '-', '0', '1', '-', '0', '2', 'T', '0', '1', ':', '0', '2', ':', '0', '3']

def tsC : Seg :=
  ['2', '0', '1', '3', '-', '0', '1', '-', '0', '1', 'T', '0', '1', ':', '0', '2', ':', '0', '3']

/-- A trivially completed instance (no parts, declared size 0). -/
def instC0 : Instance := { parts := [], sizeF := some 0, hashF := some [] }

/-- A repository with three completed instances under name `x`. -/
def repoW4 : Repo :=
  { names := [(['x'], [(stripColons tsA, instC0), (stripColons tsB, instC0),
      (stripColons tsC, instC0)])]
    store := [] }

/-- The result of `remove_obsolete` with `maxbackups = 1` on `repoW4`. -/
def repoW4' : Repo :=
  match remove_obsolete cfgW repoW4 ['x'] 1 with
  | .ok r => r
  | .error _ => repoW4

/-- Witness for C4: three completed instances, keep one. -/
theorem C4_retention_witness :
    wellFormedNames repoW4.names ∧
    remove_obsolete cfgW repoW4 ['x'] 1 = .ok repoW4' ∧
    timestamps repoW4' ['x']
      = (timestamps repoW4 ['x']).take
          (keepCount (isCompleted repoW4 ['x']) 1 (timestamps repoW4 ['x'])) := by
  refine ⟨by decide, rfl, ?_⟩
  exact (C4_retention cfgW repoW4 repoW4' ['x'] 1 (by decide) rfl).1

theorem targetDigest_some (t : Target) (d : Seg) :
    targetDigest t = some d ↔ t = symlink_target d := by
  constructor
  · intro h
    unfold targetDigest at h
    split at h
    case h_2 => cases h
    case h_1 u1 u2 u3 dd a b =>
      by_cases hc : u1 = dotdot ∧ u2 = dotdot ∧ u3 = dotdot ∧ dd = dataSeg ∧
          a = (a ++ b).take 3 ∧ b = (a ++ b).drop 3
      · rw [if_pos hc] at h
        injection h with h
        obtain ⟨h1, h2, h3, h4, h5, h6⟩ := hc
        subst h1
        subst h2
        subst h3
        subst h4
        subst h
        unfold symlink_target hash_filename
        dsimp only
        rw [← h5, ← h6]
      · rw [if_neg hc] at h
        cases h
  · intro h
    subst h
    unfold targetDigest symlink_target hash_filename
    dsimp only
    rw [if_pos ⟨rfl, rfl, rfl, rfl, by rw [List.take_append_drop],
      by rw [List.take_append_drop]⟩, List.take_append_drop]

theorem hash_of_filename_canonical (t : Target) (d : Seg)
    (h : targetDigest t = some d) : hash_of_filename t = .ok d := by
  rw [(targetDigest_some t d).mp h]
  have hcalc : hash_of_filename (symlink_target d) = .ok (d.take 3 ++ d.drop 3) := rfl
  rw [hcalc, List.take_append_drop]

theorem lookupA_of_mem_nodup {κ ν : Type} [DecidableEq κ] :
    ∀ (l : List (κ × ν)), (l.map (fun e => e.1)).Nodup →
      ∀ e ∈ l, lookupA l e.1 = some e.2 := by
  intro l
  induction l with
  | nil => intro _ e he; cases he
  | cons e0 es ih =>
    intro hnd e he
    rw [List.map_cons, List.nodup_cons] at hnd
    rcases List.mem_cons.mp he with h1 | h1
    · rw [h1, lookupA, if_pos rfl]
    · have hne : ¬ e0.1 = e.1 := fun hx =>
        hnd.1 (hx ▸ List.mem_map.mpr ⟨e, h1, rfl⟩)
      rw [lookupA, if_neg hne]
      exact ih hnd.2 e h1

theorem digestsOf_mem :
    ∀ (l : List ((Seg × Seg) × Target)) (ds : List Seg), digestsOf l = .ok ds →
      ∀ pe ∈ l, ∀ d, hash_of_filename pe.2 = .ok d → d ∈ ds := by
  intro l
  induction l with
  | nil => intro ds _ pe hpe; cases hpe
  | cons e es ih =>
    intro ds h pe hpe d hd
    rw [digestsOf] at h
    cases h1 : hash_of_filename e.2 with
    | error err => rw [h1] at h; cases h
    | ok d0 =>
      rw [h1] at h
      dsimp only at h
      cases h2 : digestsOf es with
      | error err => rw [h2] at h; cases h
      | ok ds0 =>
        rw [h2] at h
        dsimp only at h
        injection h with h
        subst h
        rcases List.mem_cons.mp hpe with h3 | h3
        · subst h3
          rw [hd] at h1
          injection h1 with h1
          rw [h1]
          exact List.mem_cons_self _ _
        · exact List.mem_cons_of_mem _ (ih ds0 h2 pe h3 d hd)

theorem sweepName_mem (repo1 : Repo) (n : Seg) :
    ∀ (tsl : List Seg) (ds : List Seg), sweepName repo1 n tsl = .ok ds →
      ∀ t ∈ tsl, ∃ inst ds1, findInst repo1 n t = some inst ∧
        digestsOf (partfiles inst) = .ok ds1 ∧ ∀ d ∈ ds1, d ∈ ds := by
  intro tsl
  induction tsl with
  | nil => intro ds _ t ht; cases ht
  | cons t0 rest ih =>
    intro ds h t ht
    rw [sweepName] at h
    cases h1 : findInst repo1 n t0 with
    | none => rw [h1] at h; cases h
    | some inst0 =>
      rw [h1] at h
      dsimp only at h
      cases h2 : digestsOf (partfiles inst0) with
      | error err => rw [h2] at h; cases h
      | ok ds0 =>
        rw [h2] at h
        dsimp only at h
        cases h3 : sweepName repo1 n rest with
        | error err => rw [h3] at h; cases h
        | ok ds2 =>
          rw [h3] at h
          dsimp only at h
          injection h with h
          subst h
          rcases List.mem_cons.mp ht with h4 | h4
          · subst h4
            exact ⟨inst0, ds0, h1, h2, fun d hd => List.mem_append_left _ hd⟩
          · obtain ⟨inst, ds1, hf, hdg, hsub⟩ := ih ds2 h3 t h4
            exact ⟨inst, ds1, hf, hdg, fun d hd => List.mem_append_right _ (hsub d hd)⟩

theorem sweepRefs_mem (cfg : Config) (repo1 : Repo) :
    ∀ (nlist : List (Seg × List (Seg × Instance))) (refs : List Seg),
      sweepRefs cfg repo1 nlist = .ok refs →
      ∀ e ∈ nlist, ∃ ds, sweepName repo1 e.1 (timestamps repo1 e.1) = .ok ds ∧
        ∀ d ∈ ds, d ∈ refs := by
  intro nlist
  induction nlist with
  | nil => intro refs _ e he; cases he
  | cons e0 es ih =>
    intro refs h e he
    rw [sweepRefs] at h
    split_ifs at h with hval
    cases h1 : sweepName repo1 e0.1 (timestamps repo1 e0.1) with
    | error err => rw [h1] at h; cases h
    | ok ds0 =>
      rw [h1] at h
      dsimp only at h
      cases h2 : sweepRefs cfg repo1 es with
      | error err => rw [h2] at h; cases h
      | ok ds2 =>
        rw [h2] at h
        dsimp only at h
        injection h with h
        subst h
        rcases List.mem_cons.mp he with h3 | h3
        · subst h3
          exact ⟨ds0, h1, fun d hd => List.mem_append_left _ hd⟩
        · obtain ⟨ds, hsn, hsub⟩ := ih ds2 h2 e h3
          exact ⟨ds, hsn, fun d hd => List.mem_append_right _ (hsub d hd)⟩

/-- Every canonical digest referenced from a remaining instance is
collected by the reference sweep. -/
theorem refs_complete (cfg : Config) (repo1 : Repo) (refs : List Seg)
    (hkeysnd : (repo1.names.map (fun e => e.1)).Nodup)
    (hwfin : ∀ e ∈ repo1.names,
      ((e.2.map (fun i => i.1)).Nodup ∧ ∀ i ∈ e.2, ∀ c ∈ i.1, ¬ c = ':'))
    (hsw : sweepRefs cfg repo1 repo1.names = .ok refs) :
    ∀ e ∈ repo1.names, ∀ i ∈ e.2, ∀ pe ∈ i.2.parts, ∀ d,
      targetDigest pe.2 = some d → d ∈ refs := by
  intro e he i hi pe hpe d htd
  obtain ⟨ds, hsn, hds⟩ := sweepRefs_mem cfg repo1 repo1.names refs hsw e he
  have hli : lookupA repo1.names e.1 = some e.2 :=
    lookupA_of_mem_nodup repo1.names hkeysnd e he
  have hmem : insertColons i.1 ∈ timestamps repo1 e.1 := by
    unfold timestamps
    rw [hli]
    exact (List.perm_insertionSort _ _).mem_iff.mpr (List.mem_map.mpr ⟨i, hi, rfl⟩)
  have hfi : findInst repo1 e.1 (insertColons i.1) = some i.2 := by
    unfold findInst
    rw [hli]
    dsimp only
    rw [stripColons_insertColons i.1 ((hwfin e he).2 i hi)]
    exact lookupA_of_mem_nodup e.2 (hwfin e he).1 i hi
  obtain ⟨inst, ds1, hf2, hdg, hsub⟩ := sweepName_mem repo1 e.1 _ ds hsn _ hmem
  rw [hfi] at hf2
  injection hf2 with hf2
  subst hf2
  have hpe2 : pe ∈ partfiles i.2 :=
    (List.perm_insertionSort _ _).mem_iff.mpr hpe
  exact hds d (hsub d (digestsOf_mem (partfiles i.2) ds1 hdg pe hpe2 d
    (hash_of_filename_canonical pe.2 d htd)))

theorem lookupA_filter_key {κ ν : Type} [DecidableEq κ] (q : κ → Bool) :
    ∀ (l : List (κ × ν)) (k : κ),
      lookupA (l.filter (fun e => q e.1)) k = if q k then lookupA l k else none := by
  intro l
  induction l with
  | nil =>
    intro k
    by_cases h : q k <;> simp [lookupA, h]
  | cons e es ih =>
    intro k
    rw [List.filter_cons]
    by_cases hqe : q e.1
    · rw [if_pos (show (q e.1) = true from hqe), lookupA]
      by_cases hek : e.1 = k
      · have hqk : q k := by rw [← hek]; exact hqe
        rw [if_pos hek, if_pos hqk, lookupA, if_pos hek]
      · rw [if_neg hek, ih k]
        by_cases hqk : q k
        · rw [if_pos hqk, if_pos hqk, lookupA, if_neg hek]
        · rw [if_neg hqk, if_neg hqk]
    · rw [if_neg (by simpa using hqe), ih k]
      by_cases hqk : q k
      · have hek : ¬ e.1 = k := fun hx => hqe (by rw [hx]; exact hqk)
        rw [if_pos hqk, if_pos hqk, lookupA, if_neg hek]
      · rw [if_neg hqk, if_neg hqk]

theorem foldl_mapName_mem {μ : Type} :
    ∀ (ts : List Seg) (l : List (Seg × List (Seg × μ))) (name : Seg)
      (e2 : Seg × List (Seg × μ)),
      e2 ∈ ts.foldl (fun ns t => mapName ns name
        (fun insts => eraseKey insts (stripColons t))) l →
      ∃ e ∈ l, e.1 = e2.1 ∧ e2.2.Sublist e.2 := by
  intro ts
  induction ts with
  | nil =>
    intro l name e2 h
    exact ⟨e2, h, rfl, List.Sublist.refl _⟩
  | cons t ts ih =>
    intro l name e2 h
    rw [List.foldl_cons] at h
    obtain ⟨e1, he1, hk1, hs1⟩ := ih _ name e2 h
    rcases mapName_mem l name _ e1 he1 with h2 | ⟨e, he, hkn, heq⟩
    · exact ⟨e1, h2, hk1, hs1⟩
    · refine ⟨e, he, ?_, ?_⟩
      · rw [← hk1, heq]
      · have he12 : e1.2 = eraseKey e.2 (stripColons t) := by rw [heq]
        rw [he12] at hs1
        exact hs1.trans (eraseKey_sublist _ _)

theorem lookupA_filter_notmem {ν : Type} (M : List (Seg × Seg)) :
    ∀ (l : List ((Seg × Seg) × ν)) (k : Seg × Seg),
      lookupA (l.filter (fun e => decide (e.1 ∉ M))) k
        = if k ∈ M then none else lookupA l k := by
  intro l
  induction l with
  | nil =>
    intro k
    by_cases h : k ∈ M <;> simp [lookupA, h]
  | cons e es ih =>
    intro k
    rw [List.filter_cons]
    by_cases hem : e.1 ∈ M
    · rw [if_neg (by simpa using hem), ih k]
      by_cases hkm : k ∈ M
      · rw [if_pos hkm, if_pos hkm]
      · rw [if_neg hkm, if_neg hkm, lookupA]
        have hek : ¬ e.1 = k := fun hx => hkm (hx ▸ hem)
        rw [if_neg hek]
    · rw [if_pos (by simpa using hem), lookupA]
      by_cases hek : e.1 = k
      · have hkm : k ∉ M := fun hx => hem (by rw [hek]; exact hx)
        rw [if_pos hek, if_neg hkm, lookupA, if_pos hek]
      · rw [if_neg hek, ih k]
        by_cases hkm : k ∈ M
        · rw [if_pos hkm, if_pos hkm]
        · rw [if_neg hkm, if_neg hkm, lookupA, if_neg hek]

/-- C5: after a successful `remove_obsolete` on a well-formed
repository whose part symlinks are canonical and all resolve, every
part symlink of every remaining instance still resolves to an
existing blob, and a blob is unlinked by the sweep only if its digest
is referenced by no part symlink of any remaining instance. -/
theorem C5_gc_safety (cfg : Config) (repo repo2 : Repo) (name : Seg) (k : Nat)
    (hwf : wellFormedNames repo.names)
    (hcan : allCanonical repo.names)
    (hres : allResolve repo.store repo.names)
    (hok : remove_obsolete cfg repo name k = .ok repo2) :
    allResolve repo2.store repo2.names ∧
    (∀ (key : Seg × Seg) (v : Bytes),
        lookupA repo.store key = some v → lookupA repo2.store key = none →
        ∀ e ∈ repo2.names, ∀ i ∈ e.2, ∀ pe ∈ i.2.parts, ∀ d,
          targetDigest pe.2 = some d → hash_filename d ≠ key) := by
  obtain ⟨hvn, hk, dropL, repo1, freed, refs, hdl, hri, hsw, hrepo2⟩ :=
    remove_obsolete_ok cfg repo name k repo2 hok
  obtain ⟨hst1, hnm1⟩ := removeInstances_ok name dropL repo repo1 freed hri
  have hnames2 : repo2.names = repo1.names := by rw [hrepo2]
  have hstore2 : repo2.store = repo1.store.filter
      (fun e => decide (e.1 ∉
        (freed.filter (fun d => decide (d ∉ refs))).map hash_filename)) := by
    rw [hrepo2]
  have htrace : ∀ e2 ∈ repo1.names,
      ∃ e ∈ repo.names, e.1 = e2.1 ∧ e2.2.Sublist e.2 := by
    rw [hnm1]
    exact fun e2 h2 => foldl_mapName_mem dropL repo.names name e2 h2
  have hkeys1 : (repo1.names.map (fun e => e.1)).Nodup := by
    rw [hnm1, keys_foldl_mapName]
    exact hwf.1
  have hwfin1 : ∀ e ∈ repo1.names,
      ((e.2.map (fun i => i.1)).Nodup ∧ ∀ i ∈ e.2, ∀ c ∈ i.1, ¬ c = ':') := by
    intro e2 h2
    obtain ⟨e, he, hkey, hsub⟩ := htrace e2 h2
    obtain ⟨hn, hc⟩ := hwf.2 e he
    exact ⟨List.Nodup.sublist (hsub.map _) hn, fun i hi => hc i (hsub.subset hi)⟩
  have hcomplete := refs_complete cfg repo1 refs hkeys1 hwfin1 hsw
  have hnotmem : ∀ d : Seg, d ∈ refs →
      hash_filename d ∉ (freed.filter (fun d0 => decide (d0 ∉ refs))).map hash_filename := by
    intro d hd hmm
    obtain ⟨d0, hd0, heq⟩ := List.mem_map.mp hmm
    have hdd : d0 = d := hash_filename_inj d0 d heq
    subst hdd
    have hh := (List.mem_filter.mp hd0).2
    simp only [decide_eq_true_eq] at hh
    exact hh hd
  have hsurv : ∀ d : Seg, d ∈ refs →
      lookupA repo2.store (hash_filename d) = lookupA repo.store (hash_filename d) := by
    intro d hd
    rw [hstore2, lookupA_filter_notmem, if_neg (hnotmem d hd), hst1]
  constructor
  · intro e2 h2 i hi pe hpe
    rw [hnames2] at h2
    obtain ⟨e, he, hkey, hsub⟩ := htrace e2 h2
    have hcanpe := hcan e he i (hsub.subset hi) pe hpe
    obtain ⟨d, htd⟩ := Option.isSome_iff_exists.mp hcanpe
    have hdrefs : d ∈ refs := hcomplete e2 h2 i hi pe hpe d htd
    have hrespre := hres e he i (hsub.subset hi) pe hpe
    rw [(targetDigest_some _ _).mp htd, resolveTarget_symlink_target] at hrespre ⊢
    rw [hsurv d hdrefs]
    exact hrespre
  · intro key v hv hnone e2 h2 i hi pe hpe d htd hkeyeq
    rw [hnames2] at h2
    have hdrefs : d ∈ refs := hcomplete e2 h2 i hi pe hpe d htd
    have := hsurv d hdrefs
    rw [hkeyeq, hnone, hv] at this
    cases this

/-- The repository after retention on the single-instance sample. -/
def repoW5' : Repo :=
  match remove_obsolete cfgW repoW7 ['x'] 1 with
  | .ok r => r
  | .error _ => repoW7

/-- Witness for C5 at the concrete sample repository. -/
theorem C5_gc_safety_witness :
    wellFormedNames repoW7.names ∧ allCanonical repoW7.names ∧
    allResolve repoW7.store repoW7.names ∧
    remove_obsolete cfgW repoW7 ['x'] 1 = .ok repoW5' ∧
    allResolve repoW5'.store repoW5'.names := by
  refine ⟨by decide, by decide, by decide, rfl, ?_⟩
  exact (C5_gc_safety cfgW repoW7 repoW5' ['x'] 1
    (by decide) (by decide) (by decide) rfl).1

/-- The retention-integrated ingest entry point (`add`, lines 236-241).
The source calls `self.add_nomaxbackups(name)` on line 240 without
passing the input stream; in Python this call raises `TypeError`
(wrong number of arguments) before the ingest body can run, after
the first `remove_obsolete` has already completed, and the second
`remove_obsolete` is never reached. -/
def add (_hashFn : Bytes → Seg) (cfg : Config) (repo : Repo) (name : Seg)
    (maxbackups : Nat) (_input : Bytes) : Except Err Repo :=
  if ¬ validName cfg name then .error .typeError
  else if ¬ 0 < maxbackups then .error .typeError
  else
    match remove_obsolete cfg repo name maxbackups with
    | .error err => .error err
    | .ok _ => .error .typeError

/-- C2 (code bug): `add` never ingests anything.  At the concrete
failing input it raises `TypeError` after the first
`remove_obsolete`, and in general no invocation of `add` can return
successfully, contradicting the claimed
`remove_obsolete; ingest; remove_obsolete` behaviour. -/
theorem C2_add_missing_input :
    add encBytes cfgW repoW0 ['x'] 1 inputW = .error .typeError ∧
    ∀ (hashFn : Bytes → Seg) (cfg : Config) (repo : Repo) (name : Seg)
      (k : Nat) (input : Bytes) (r : Repo),
      add hashFn cfg repo name k input ≠ .ok r := by
  constructor
  · rfl
  · intro hashFn cfg repo name k input r h
    unfold add at h
    split_ifs at h
    cases h2 : remove_obsolete cfg repo name k with
    | error err => rw [h2] at h; cases h
    | ok r1 => rw [h2] at h; cases h

/-- Witness for the universally quantified part of C2. -/
theorem C2_add_missing_input_witness :
    add encBytes cfgW repoW0 ['x'] 1 inputW = .error .typeError ∧
    add encBytes cfgW repoW0 ['x'] 1 inputW ≠ .ok repoW0 :=
  ⟨C2_add_missing_input.1,
    C2_add_missing_input.2 encBytes cfgW repoW0 ['x'] 1 inputW repoW0⟩

/-- Absolute paths in the small filesystem model, as segment lists. -/
abbrev Path := List Seg

/-- A minimal filesystem for the `Util` primitives: regular files with
contents, symlinks with targets, and directories. -/
structure MiniFS where
  files : List (Path × Bytes)
  links : List (Path × Seg)
  dirs : List Path
  deriving DecidableEq, Repr

/-- Python `os.path.exists`. -/
def pathExists (fs : MiniFS) (p : Path) : Bool :=
  (lookupA fs.files p).isSome || (lookupA fs.links p).isSome || fs.dirs.contains p

/-- Python `os.path.dirname`. -/
def dirname (p : Path) : Path := p.dropLast

/-- Python `os.makedirs` (the ancestor chain is irrelevant to the
claims, so only the directory itself is recorded). -/
def mkdirs (fs : MiniFS) (p : Path) : MiniFS :=
  { fs with dirs := p :: fs.dirs }

/-- Write or overwrite a regular file in place. -/
def setFile (l : List (Path × Bytes)) (p : Path) (data : Bytes) :
    List (Path × Bytes) :=
  match lookupA l p with
  | some _ => setA l p data
  | none => (p, data) :: l

/-- `Util.write_file` (lines 33-40): create the parent directory if it
does not exist, then `open(filename, 'wb')` truncates or creates the
destination in place and `f.write(data)` fills it.  There is no
temporary name, no fsync and no rename. -/
def write_file (fs : MiniFS) (p : Path) (data : Bytes) : MiniFS :=
  let fs1 := if pathExists fs (dirname p) then fs else mkdirs fs (dirname p)
  { fs1 with files := setFile fs1.files p data }

/-- The observable on-disk states of one `write_file` call: after the
parent check, after `open` truncated the destination, and after the
write.  A crash between `open` and `write` leaves the middle state
on disk. -/
def write_file_states (fs : MiniFS) (p : Path) (data : Bytes) : List MiniFS :=
  let fs1 := if pathExists fs (dirname p) then fs else mkdirs fs (dirname p)
  [fs1, { fs1 with files := setFile fs1.files p [] }, write_file fs p data]

/-- `Util.symlink` (lines 42-48): create the parent directory if it
does not exist, then call `os.symlink(target, filename)` directly,
which raises `OSError` (`EEXIST`) when the destination path already
exists.  There is no temporary name and no rename. -/
def symlink (fs : MiniFS) (target : Seg) (p : Path) : Except Err MiniFS :=
  let fs1 := if pathExists fs (dirname p) then fs else mkdirs fs (dirname p)
  if pathExists fs1 p then .error .osError
  else .ok { fs1 with links := (p, target) :: fs1.links }

theorem setFile_self (l : List (Path × Bytes)) (p : Path) (data : Bytes) :
    lookupA (setFile l p data) p = some data := by
  unfold setFile
  cases h : lookupA l p with
  | none =>
    dsimp only
    rw [lookupA, if_pos rfl]
  | some b =>
    dsimp only
    exact lookupA_setA_self l p data b h

theorem setFile_other (l : List (Path × Bytes)) (p q : Path) (data : Bytes)
    (hq : q ≠ p) : lookupA (setFile l p data) q = lookupA l q := by
  unfold setFile
  cases h : lookupA l p with
  | none =>
    dsimp only
    rw [lookupA, if_neg (fun hx => hq hx.symm)]
  | some b =>
    dsimp only
    exact lookupA_setA_other l p q data hq

/-- A sample filesystem: the root directory and one file `p` holding the
byte 9. -/
def fsW : MiniFS := { files := [([['p']], [9])], links := [], dirs := [[]] }

/-- C3 (counterexample): the claim fails on the code.  During
`write_file` an intermediate on-disk state maps the destination to
truncated contents, which is neither `absent` nor `final contents`
(the final contents being `[1]`), and `symlink` onto an existing
destination raises `OSError` instead of renaming over it. -/
theorem C3_counterexample :
    ((write_file_states fsW [['p']] [1]).get? 1).map
        (fun fs1 => lookupA fs1.files [['p']]) = some (some []) ∧
    some ([] : Bytes) ≠ none ∧ some ([] : Bytes) ≠ some [1] ∧
    symlink fsW ['t'] [['p']] = .error .osError :=
  ⟨rfl, by decide, by decide, rfl⟩

/-- C3 (amended): `write_file` ensures the parent directory and then
writes the destination in place, so the final state maps the
destination to the new contents and leaves every other file
unchanged, but the intermediate state of an interrupted call has the
destination truncated; `symlink` ensures the parent and calls
`os.symlink` directly, which creates the link only when the
destination does not exist and raises `OSError` when it does. -/
theorem C3_write_file_symlink (fs : MiniFS) (p q : Path) (data : Bytes)
    (target : Seg) :
    lookupA (write_file fs p data).files p = some data ∧
    (q ≠ p → lookupA (write_file fs p data).files q = lookupA fs.files q) ∧
    ((write_file_states fs p data).get? 1).map
        (fun fs1 => lookupA fs1.files p) = some (some []) ∧
    (pathExists (if pathExists fs (dirname p) then fs else mkdirs fs (dirname p)) p
        = true → symlink fs target p = .error .osError) ∧
    (pathExists (if pathExists fs (dirname p) then fs else mkdirs fs (dirname p)) p
        = false → ∃ fs2, symlink fs target p = .ok fs2 ∧
          lookupA fs2.links p = some target) := by
  refine ⟨?_, ?_, ?_, ?_, ?_⟩
  · unfold write_file
    exact setFile_self _ p data
  · intro hq
    unfold write_file
    dsimp only
    rw [setFile_other _ p q data hq]
    by_cases hd : pathExists fs (dirname p)
    · rw [if_pos hd]
    · rw [if_neg hd]
      rfl
  · unfold write_file_states
    dsimp only [List.get?, Option.map]
    rw [setFile_self]
  · intro hex
    unfold symlink
    rw [if_pos hex]
  · intro hex
    unfold symlink
    rw [if_neg (by rw [hex]; exact fun h => by cases h)]
    exact ⟨_, rfl, by rw [lookupA, if_pos rfl]⟩

/-- Witness for the amended C3 at concrete inputs. -/
theorem C3_write_file_symlink_witness :
    lookupA (write_file fsW [['p']] [1]).files [['p']] = some [1] ∧
    ([['q']] : Path) ≠ [['p']] ∧
    lookupA (write_file fsW [['p']] [1]).files [['q']] = lookupA fsW.files [['q']] ∧
    pathExists (if pathExists fsW (dirname [['p']]) then fsW
      else mkdirs fsW (dirname [['p']])) [['p']] = true ∧
    symlink fsW ['t'] [['p']] = .error .osError := by
  have h := C3_write_file_symlink fsW [['p']] [['q']] [1] ['t']
  exact ⟨h.1, by decide, h.2.1 (by decide), by decide, h.2.2.2.1 (by decide)⟩

end Shasplit
